import Mathlib

/-!
configbuddy.v2: configuration loading, merging and the file-action loop

A shallow embedding of `executor/executor.go`.

* Go strings are Lean strings; path computations work on their character lists.
* A Go map is an association list holding one entry per key; a `nil` map is `none`.
* `*model.ConfigWrapper` is a value; a `nil` pointer is `none`.  The one place where the
  program aliases two pointers (`appendToThis = cfg` in `loadConfig`) is made explicit.
* The file system, the working directory and the YAML decoder are fields of `Env`.
* `loadConfig` recurses over the include graph with no cycle check, so it carries fuel.
-/

namespace ConfigBuddy

/-! ## Go standard library: `path/filepath` (Unix) and `strings` -/

/-- Go `error` values, identified by their message. -/
abbrev GoError := String

deriving instance DecidableEq for Except

/-- Splits a path at every slash: the first element and the list of the following ones. -/
def splitSlash : List Char → List Char × List (List Char)
  | [] => ([], [])
  | c :: cs =>
    let r := splitSlash cs
    if c = '/' then ([], r.1 :: r.2) else (c :: r.1, r.2)

/-- All slash-separated elements of a path, empty ones included. -/
def pathElems (p : List Char) : List (List Char) :=
  (splitSlash p).1 :: (splitSlash p).2

/-- Joins path elements with single slashes. -/
def joinSlash : List (List Char) → List Char
  | [] => []
  | [w] => w
  | w :: v :: ws => w ++ '/' :: joinSlash (v :: ws)

/-- One element of the scan of `filepath.Clean`; `stack` holds the elements kept so far, the
last one first.  Empty and `.` elements are dropped, `..` removes the element before it,
is dropped at the root, and is kept at the start of a relative path. -/
def cleanStep (rooted : Bool) (stack : List (List Char)) (c : List Char) : List (List Char) :=
  if c = [] ∨ c = ['.'] then stack
  else if c = ['.', '.'] then
    match stack with
    | top :: rest => if top = ['.', '.'] then c :: stack else rest
    | [] => if rooted then [] else [c]
  else c :: stack

/-- An element that `filepath.Clean` keeps as it is. -/
def PlainElem (c : List Char) : Prop :=
  c ≠ [] ∧ c ≠ ['.'] ∧ c ≠ ['.', '.'] ∧ '/' ∉ c

/-- Whether the path begins with a slash (`filepath.IsAbs` on Unix). -/
def isRooted : List Char → Bool
  | '/' :: _ => true
  | _ => false

/-- Go `filepath.Clean` on character lists, by its documented rules. -/
def cleanChars (p : List Char) : List Char :=
  let body := joinSlash ((pathElems p).foldl (cleanStep (isRooted p)) []).reverse
  if isRooted p then '/' :: body else if body = [] then ['.'] else body

/-- Go `filepath.Clean`. -/
def filepathClean (p : String) : String := String.mk (cleanChars p.data)

/-- Go `filepath.IsAbs` (Unix): the path starts with a slash. -/
def filepathIsAbs (p : String) : Bool := isRooted p.data

/-- The path up to and including its last slash (empty when it has none). -/
def dirChars (p : List Char) : List Char :=
  (p.reverse.dropWhile (fun c => c != '/')).reverse

/-- Go `filepath.Dir`: drops the last element and cleans what is left. -/
def filepathDir (p : String) : String := String.mk (cleanChars (dirChars p.data))

/-- Go `filepath.Join` of two elements: the elements from the first non-empty one on are
joined with slashes and cleaned; when both are empty the result is empty. -/
def filepathJoin (a b : String) : String :=
  if a ≠ "" then filepathClean (a ++ "/" ++ b)
  else if b ≠ "" then filepathClean b
  else ""

/-- Go `strings.HasPrefix`. -/
def stringsHasPrefix (s p : String) : Bool := p.data.isPrefixOf s.data

/-! ## Go maps -/

/-- The entries of a non-nil Go map, one per key. -/
abbrev Entries (V : Type) := List (String × V)

/-- A Go map value: `none` is the nil map. -/
abbrev GoMap (V : Type) := Option (Entries V)

/-- The read `m[k]` with its presence flag. -/
def Entries.lookup {V : Type} (k : String) : Entries V → Option V
  | [] => none
  | (k', v) :: rest => if k' = k then some v else Entries.lookup k rest

/-- The assignment `m[k] = v`: replaces the entry of `k`, or adds one. -/
def Entries.store {V : Type} (k : String) (v : V) : Entries V → Entries V
  | [] => [(k, v)]
  | (k', v') :: rest => if k' = k then (k, v) :: rest else (k', v') :: Entries.store k v rest

/-- What `for key, val := range m` visits; a nil map has no entries. -/
def GoMap.range {V : Type} (m : GoMap V) : Entries V := m.getD []

/-- The guard `if m == nil { m = make(...) }`: the entries of the map after it. -/
def GoMap.madeIfNil {V : Type} : GoMap V → Entries V
  | none => []
  | some m => m

/-- The read `m[k]` on a possibly nil map. -/
def GoMap.lookup {V : Type} (k : String) (m : GoMap V) : Option V := Entries.lookup k m.range

/-- A map holds one entry per key. -/
def Entries.keysUnique {V : Type} (m : Entries V) : Prop := (m.map Prod.fst).Nodup

instance {V : Type} (m : Entries V) : Decidable m.keysUnique := by
  unfold Entries.keysUnique; infer_instance

/-! ## The data model (package `model`) -/

/-- Modelled from the spec: `model.FileAction` is declared outside the files at hand; the
two fields the executor reads and writes are `Source` and `Destination`. -/
structure FileAction where
  Source : String
  Destination : String
  deriving DecidableEq, Repr

/-- Modelled from the spec: `model.PackageAction`, whose fields the executor never reads. -/
structure PackageAction where
  descriptor : String
  deriving DecidableEq, Repr

/-- The parsed document `model.Config`. -/
structure Config where
  FileActions : GoMap FileAction
  PackageActions : GoMap PackageAction
  Includes : List String
  deriving DecidableEq, Repr

/-- The loaded document `model.ConfigWrapper`. -/
structure ConfigWrapper where
  Config : Config
  ConfigFilePath : String
  ConfigFileDirectory : String
  deriving DecidableEq, Repr

/-- What the program reads from its surroundings: `os.Getwd`, `ioutil.ReadFile` and
`yaml.Unmarshal`. -/
structure Env where
  getwd : Except GoError String
  readBytes : String → Except GoError String
  unmarshal : String → Except GoError Config

/-- The working directory, when there is one, is an absolute path. -/
def Env.wdAbsolute (env : Env) : Prop :=
  match env.getwd with
  | .ok wd => filepathIsAbs wd = true
  | .error _ => True

instance (env : Env) : Decidable env.wdAbsolute := by
  unfold Env.wdAbsolute; split <;> infer_instance

/-- Go `filepath.Abs` (Unix): an absolute path is cleaned, a relative one is joined to the
working directory. -/
def filepathAbs (env : Env) (path : String) : Except GoError String :=
  if filepathIsAbs path then .ok (filepathClean path)
  else
    match env.getwd with
    | .error e => .error e
    | .ok wd => .ok (filepathJoin wd path)

/-! ## `executor.go` -/

/-- The function `readFile`. -/
def readFile (env : Env) (filePath : String) : Except GoError ConfigWrapper :=
  match filepathAbs env filePath with
  | .error e => .error e
  | .ok abs =>
    match env.readBytes abs with
    | .error e => .error e
    | .ok bytes =>
      match env.unmarshal bytes with
      | .error e => .error e
      | .ok c =>
        .ok { Config := c, ConfigFilePath := abs, ConfigFileDirectory := filepathDir abs }

/-- The body of the file-action loop of `appendActionsToGlobalConfig` for one value. -/
def rebaseAction (env : Env) (dir : String) (val : FileAction) : Except GoError FileAction :=
  match filepathAbs env (dir ++ "/" ++ val.Source) with
  | .error e => .error e
  | .ok abs =>
    let val := { val with Source := abs }
    if stringsHasPrefix val.Destination "." then
      .ok { val with Destination := dir ++ "/" ++ val.Destination }
    else .ok val

/-- The file-action loop of `appendActionsToGlobalConfig`: every entry of the document is
rebased and assigned into the accumulator's map; the first error ends the loop. -/
def appendFileActions (env : Env) (dir : String) :
    Entries FileAction → Entries FileAction → Except GoError (Entries FileAction)
  | [], target => .ok target
  | (key, val) :: rest, target =>
    match rebaseAction env dir val with
    | .error e => .error e
    | .ok val => appendFileActions env dir rest (Entries.store key val target)

/-- The package-action loop of `appendActionsToGlobalConfig`. -/
def appendPackageActions : Entries PackageAction → Entries PackageAction → Entries PackageAction
  | [], target => target
  | (key, val) :: rest, target => appendPackageActions rest (Entries.store key val target)

/-- The function `appendActionsToGlobalConfig`: the new value of `appendToThis`.  The loops
run over the entries `cfg` has at the call; when both pointers are the same object each
assignment overwrites the entry being visited, so the entries visited are these. -/
def appendActionsToGlobalConfig (env : Env) (cfg appendToThis : ConfigWrapper) :
    Except GoError ConfigWrapper :=
  let fileActions := appendToThis.Config.FileActions.madeIfNil
  match appendFileActions env cfg.ConfigFileDirectory cfg.Config.FileActions.range fileActions with
  | .error e => .error e
  | .ok fileActions =>
    let packageActions := appendToThis.Config.PackageActions.madeIfNil
    let packageActions := appendPackageActions cfg.Config.PackageActions.range packageActions
    .ok { appendToThis with
          Config := { appendToThis.Config with
                      FileActions := some fileActions
                      PackageActions := some packageActions } }

/-- How a call of `loadConfig` ends: it returns a value, returns an error, or is still
recursing when the fuel is used up. -/
inductive Run (α : Type) where
  | ok (a : α)
  | err (e : GoError)
  | outOfFuel
  deriving DecidableEq, Repr

/-- The include loop of `loadConfig`; `load` is the recursive call and `acc` the object
`appendToThis` points to. -/
def includeLoop (load : Option ConfigWrapper → String → Run (ConfigWrapper × ConfigWrapper))
    (dir : String) : List String → ConfigWrapper → Run ConfigWrapper
  | [], acc => .ok acc
  | includeFile :: rest, acc =>
    match load (some acc) (dir ++ "/" ++ includeFile) with
    | .ok r => includeLoop load dir rest r.2
    | .err e => .err e
    | .outOfFuel => .outOfFuel

/-- The function `loadConfig`.  The result is the returned `cfg` together with the final
value of the accumulator object.  With a nil `appendToThis` the accumulator is `cfg` itself,
so the returned document is the accumulator; otherwise the returned document is the freshly
read one, which the merge does not change. -/
def loadConfig : Nat → Env → Option ConfigWrapper → String → Run (ConfigWrapper × ConfigWrapper)
  | 0, _, _, _ => .outOfFuel
  | fuel + 1, env, appendToThis, fileToLoad =>
    match readFile env fileToLoad with
    | .error e => .err e
    | .ok cfg =>
      match appendActionsToGlobalConfig env cfg (appendToThis.getD cfg) with
      | .error e => .err e
      | .ok acc =>
        match includeLoop (loadConfig fuel env) cfg.ConfigFileDirectory cfg.Config.Includes acc with
        | .err e => .err e
        | .outOfFuel => .outOfFuel
        | .ok acc =>
          match appendToThis with
          | none => .ok (acc, acc)
          | some _ => .ok (cfg, acc)

/-- The loop of `readConfigs`: `cfg` is reassigned to what `loadConfig` returns. -/
def readConfigsLoop (fuel : Nat) (env : Env) :
    List String → Option ConfigWrapper → Run (Option ConfigWrapper)
  | [], cfg => .ok cfg
  | filePath :: rest, cfg =>
    match loadConfig fuel env cfg filePath with
    | .ok r => readConfigsLoop fuel env rest (some r.1)
    | .err e => .err e
    | .outOfFuel => .outOfFuel

/-- The method `readConfigs`: the value of `finalConf` after a return without error. -/
def readConfigs (fuel : Nat) (env : Env) (configs : List String) : Run (Option ConfigWrapper) :=
  if configs.length = 0 then .ok none
  else readConfigsLoop fuel env configs none

/-- The file-action handlers, which live outside the files at hand: `NewFileExecutor` and
`Execute`, acting on a world of type `σ` with handlers of type `H`. -/
structure Handlers (σ H : Type) where
  newFileExecutor : FileAction → String → σ → Except GoError H × σ
  execute : H → σ → Option GoError × σ

/-- What the file-action loop did, in order. -/
inductive Event where
  | construct (name : String) (act : FileAction) (built : Bool)
  | execute (name : String) (act : FileAction) (failed : Bool)
  deriving DecidableEq, Repr

/-- The loop of `executeFiles` over the entries in the order the range yields them. -/
def executeFilesLoop {σ H : Type} (h : Handlers σ H) : Entries FileAction → σ → List Event × σ
  | [], w => ([], w)
  | (name, act) :: rest, w =>
    match h.newFileExecutor act name w with
    | (.error _, w) =>
      let r := executeFilesLoop h rest w
      (Event.construct name act false :: r.1, r.2)
    | (.ok fileExecutor, w) =>
      let x := h.execute fileExecutor w
      let r := executeFilesLoop h rest x.2
      (Event.construct name act true :: Event.execute name act x.1.isSome :: r.1, r.2)

/-- How a run of the executor ends. -/
inductive Status where
  | returned (err : Option GoError)
  | nilDereference
  | outOfFuel
  deriving DecidableEq, Repr

/-- The method `executeFiles`: reading `a.finalConf.Config` through a nil `finalConf` is a
runtime fault; otherwise every entry is visited and nil is returned. -/
def executeFiles {σ H : Type} (h : Handlers σ H) (finalConf : Option ConfigWrapper) (w : σ) :
    Status × List Event × σ :=
  match finalConf with
  | none => (.nilDereference, [], w)
  | some conf =>
    let r := executeFilesLoop h conf.Config.FileActions.range w
    (.returned none, r.1, r.2)

/-- The method `executePackages`, which does nothing. -/
def executePackages : Option GoError := none

/-- The function `StartConfiguring`: how the run ends, what the file-action loop did, and
the world it leaves. -/
def StartConfiguring {σ H : Type} (fuel : Nat) (env : Env) (h : Handlers σ H)
    (configs : List String) (w : σ) : Status × List Event × σ :=
  match readConfigs fuel env configs with
  | .err e => (.returned (some e), [], w)
  | .outOfFuel => (.outOfFuel, [], w)
  | .ok finalConf =>
    match executePackages with
    | some e => (.returned (some e), [], w)
    | none => executeFiles h finalConf w

/-! ## Include trees -/

mutual
/-- A finite include tree: a loaded document and the trees of its includes, in the order
the document lists them. -/
inductive IncTree where
  | node (doc : ConfigWrapper) (children : IncForest)
/-- The include trees of a list of includes. -/
inductive IncForest where
  | nil
  | cons (first : IncTree) (rest : IncForest)
end

/-- The document at the root of an include tree. -/
def IncTree.root : IncTree → ConfigWrapper
  | .node doc _ => doc

mutual
/-- The documents of a tree in depth-first pre-order, includes in declared order. -/
def IncTree.docs : IncTree → List ConfigWrapper
  | .node doc children => doc :: children.docs
/-- The documents of a list of trees, tree after tree. -/
def IncForest.docs : IncForest → List ConfigWrapper
  | .nil => []
  | .cons first rest => first.docs ++ rest.docs
end

mutual
/-- The number of documents on the longest include chain of the tree. -/
def IncTree.depth : IncTree → Nat
  | .node _ children => children.depth + 1
/-- The depth of the deepest tree of the list. -/
def IncForest.depth : IncForest → Nat
  | .nil => 0
  | .cons first rest => max first.depth rest.depth
end

mutual
/-- The tree is the include tree of the file at `path`: every node is what `readFile`
returns for its path, and its children are the trees of the paths `loadConfig` builds from
its includes. -/
def IncTree.loadsFrom (env : Env) : IncTree → String → Bool
  | .node doc children, path =>
    decide (readFile env path = .ok doc) &&
      children.loadsFrom env doc.ConfigFileDirectory doc.Config.Includes
/-- The trees are the include trees of the includes `incs` of a document in `dir`. -/
def IncForest.loadsFrom (env : Env) : IncForest → String → List String → Bool
  | .nil, _, [] => true
  | .cons first rest, dir, inc :: incs =>
    first.loadsFrom env (dir ++ "/" ++ inc) && rest.loadsFrom env dir incs
  | .nil, _, _ :: _ => false
  | .cons _ _, _, [] => false
end

/-- The merges `loadConfig` performs over a list of documents, one after the other. -/
def mergeDocs (env : Env) : List ConfigWrapper → ConfigWrapper → Except GoError ConfigWrapper
  | [], acc => .ok acc
  | d :: ds, acc =>
    match appendActionsToGlobalConfig env d acc with
    | .error e => .error e
    | .ok acc => mergeDocs env ds acc

/-! ## A small file system used for concrete runs -/

/-- The root document of the example: it declares `x` and `y` and includes `sub/sub.yaml`. -/
def rootConfig : Config :=
  { FileActions := some [("x", { Source := "rootrc", Destination := "./x.out" }),
                         ("y", { Source := "./y/../yrc", Destination := "~/.yrc" })]
    PackageActions := some [("git", { descriptor := "git" })]
    Includes := ["sub/sub.yaml"] }

/-- The included document of the example: it declares `x` again, with another source. -/
def subConfig : Config :=
  { FileActions := some [("x", { Source := "subrc", Destination := "~/.x" })]
    PackageActions := none
    Includes := [] }

/-- A second top-level document: it declares `z` and includes nothing. -/
def secondConfig : Config :=
  { FileActions := some [("z", { Source := "zrc", Destination := "./z.out" })]
    PackageActions := none
    Includes := [] }

/-- A document whose second include cannot be parsed. -/
def outerConfig : Config :=
  { FileActions := some [("w", { Source := "wrc", Destination := "~/.w" })]
    PackageActions := none
    Includes := ["sub/sub.yaml", "broken.yaml"] }

/-- A document that names its include by an absolute path. -/
def absoluteIncludeConfig : Config :=
  { FileActions := none
    PackageActions := none
    Includes := ["/cfg/sub/sub.yaml"] }

/-- A document that names its include by an absolute path that exists below its own
directory: `/sub/sub.yaml`, included from `/cfg`. -/
def rootedIncludeConfig : Config :=
  { FileActions := none
    PackageActions := none
    Includes := ["/sub/sub.yaml"] }

/-- The files of the example, by absolute path. -/
def exampleReadBytes (path : String) : Except GoError String :=
  if path = "/cfg/root.yaml" then .ok "root"
  else if path = "/cfg/sub/sub.yaml" then .ok "sub"
  else if path = "/cfg/second.yaml" then .ok "second"
  else if path = "/cfg/outer.yaml" then .ok "outer"
  else if path = "/cfg/broken.yaml" then .ok "fileActions: ["
  else if path = "/cfg/absinc.yaml" then .ok "absinc"
  else if path = "/cfg/rooted.yaml" then .ok "rooted"
  else .error ("open " ++ path ++ ": no such file or directory")

/-- The decoder of the example. -/
def exampleUnmarshal (bytes : String) : Except GoError Config :=
  if bytes = "root" then .ok rootConfig
  else if bytes = "sub" then .ok subConfig
  else if bytes = "second" then .ok secondConfig
  else if bytes = "outer" then .ok outerConfig
  else if bytes = "absinc" then .ok absoluteIncludeConfig
  else if bytes = "rooted" then .ok rootedIncludeConfig
  else .error "yaml: did not find expected node content"

/-- The surroundings of the example: working directory `/work` and the files above. -/
def exampleEnv : Env :=
  { getwd := .ok "/work", readBytes := exampleReadBytes, unmarshal := exampleUnmarshal }

/-- The document `/cfg/root.yaml` as `readFile` returns it. -/
def rootDoc : ConfigWrapper :=
  { Config := rootConfig, ConfigFilePath := "/cfg/root.yaml", ConfigFileDirectory := "/cfg" }

/-- The document `/cfg/sub/sub.yaml` as `readFile` returns it. -/
def subDoc : ConfigWrapper :=
  { Config := subConfig, ConfigFilePath := "/cfg/sub/sub.yaml",
    ConfigFileDirectory := "/cfg/sub" }

/-- The document `/cfg/second.yaml` as `readFile` returns it. -/
def secondDoc : ConfigWrapper :=
  { Config := secondConfig, ConfigFilePath := "/cfg/second.yaml",
    ConfigFileDirectory := "/cfg" }

/-- The include tree of `/cfg/root.yaml`. -/
def rootTree : IncTree := .node rootDoc (.cons (.node subDoc .nil) .nil)

/-! ## Reading the log of the file-action loop -/

/-- The entries for which the loop called `NewFileExecutor`, in order. -/
def constructedEntries : List Event → Entries FileAction
  | [] => []
  | .construct name act _ :: rest => (name, act) :: constructedEntries rest
  | .execute _ _ _ :: rest => constructedEntries rest

/-- The entries for which `NewFileExecutor` returned a handler, in order. -/
def builtEntries : List Event → Entries FileAction
  | [] => []
  | .construct name act true :: rest => (name, act) :: builtEntries rest
  | .construct _ _ false :: rest => builtEntries rest
  | .execute _ _ _ :: rest => builtEntries rest

/-- The entries whose handler the loop executed, in order. -/
def executedEntries : List Event → Entries FileAction
  | [] => []
  | .construct _ _ _ :: rest => executedEntries rest
  | .execute name act _ :: rest => (name, act) :: executedEntries rest

/-- Handlers over a trivial world: construction fails on an empty destination, and
execution fails on an empty source. -/
def exampleHandlers : Handlers Unit FileAction :=
  { newFileExecutor := fun act _ w =>
      if act.Destination = "" then (.error "path cannot be empty", w) else (.ok act, w)
    execute := fun act w =>
      if act.Source = "" then (some "path cannot be empty", w) else (none, w) }

/-! ## Failing loads -/

/-- Where in the include tree of a file the first failing load sits: at the file itself, or
below one of its includes after the includes before that one have loaded fully. -/
inductive FailTree where
  | atFile
  | inInclude (pre : List String) (done : IncForest) (inc : String) (post : List String)
      (next : FailTree)

/-- The load of `path` fails with `e` at the place the tree describes. -/
def FailTree.failsFrom (env : Env) : FailTree → String → GoError → Bool
  | .atFile, path, e => decide (readFile env path = .error e)
  | .inInclude pre done inc post next, path, e =>
    match readFile env path with
    | .error _ => false
    | .ok doc =>
      decide (doc.Config.Includes = pre ++ inc :: post) &&
        done.loadsFrom env doc.ConfigFileDirectory pre &&
        next.failsFrom env (doc.ConfigFileDirectory ++ "/" ++ inc) e

/-- The number of documents on the longest include chain the failing load visits. -/
def FailTree.depth : FailTree → Nat
  | .atFile => 1
  | .inInclude _ done _ _ next => max done.depth next.depth + 1

/-- The trees are the include trees of the listed top-level files. -/
def allLoadFrom (env : Env) : List IncTree → List String → Bool
  | [], [] => true
  | t :: ts, p :: ps => t.loadsFrom env p && allLoadFrom env ts ps
  | [], _ :: _ => false
  | _ :: _, [] => false

/-- The depth of the deepest of the trees. -/
def treesDepth : List IncTree → Nat
  | [] => 0
  | t :: ts => max t.depth (treesDepth ts)

/-- In the example, `/cfg/outer.yaml` fails below its second include, after the first one
has loaded. -/
def outerFailure : FailTree :=
  .inInclude ["sub/sub.yaml"] (.cons (.node subDoc .nil) .nil) "broken.yaml" [] .atFile

/-! ## Observing one merge -/

/-- The entry the accumulator holds under `k` after the document `cfg` has been merged
into `acc`. -/
def mergedEntry (env : Env) (cfg acc : ConfigWrapper) (k : String) : Option FileAction :=
  match appendActionsToGlobalConfig env cfg acc with
  | .error _ => none
  | .ok acc => acc.Config.FileActions.lookup k

/-- The call `appendActionsToGlobalConfig(cfg, cfg)` made twice in a row on the same
object. -/
def mergeIntoItselfTwice (env : Env) (cfg : ConfigWrapper) : Except GoError ConfigWrapper :=
  match appendActionsToGlobalConfig env cfg cfg with
  | .error e => .error e
  | .ok once => appendActionsToGlobalConfig env once once

/-- The document `/cfg/absinc.yaml` as `readFile` returns it. -/
def absoluteIncludeDoc : ConfigWrapper :=
  { Config := absoluteIncludeConfig, ConfigFilePath := "/cfg/absinc.yaml",
    ConfigFileDirectory := "/cfg" }

/-- The document `/cfg/rooted.yaml` as `readFile` returns it. -/
def rootedIncludeDoc : ConfigWrapper :=
  { Config := rootedIncludeConfig, ConfigFilePath := "/cfg/rooted.yaml",
    ConfigFileDirectory := "/cfg" }

/-- The entry `loadConfig(nil, root)` leaves under `k`, when it returns one. -/
def accumulatedEntry (fuel : Nat) (env : Env) (root k : String) : Option FileAction :=
  match loadConfig fuel env none root with
  | .ok r => r.2.Config.FileActions.lookup k
  | .err _ => none
  | .outOfFuel => none

/-! ## What the handlers see of the file-action loop -/

/-- One call received by a handler: `NewFileExecutor` with its arguments and the handler it
returned (none when it returned an error), or `Execute` with its receiver and whether it
returned an error. -/
inductive Call (H : Type) where
  | newFileExecutor (act : FileAction) (name : String) (built : Option H)
  | execute (fileExecutor : H) (failed : Bool)
  deriving DecidableEq

/-- The configuration of the example with three actions, the second of which has an empty
destination. -/
def threeActions : ConfigWrapper :=
  { Config := { FileActions := some [("a", { Source := "/s/a", Destination := "/d/a" }),
                                      ("b", { Source := "/s/b", Destination := "" }),
                                      ("c", { Source := "/s/c", Destination := "/d/c" })]
                PackageActions := none
                Includes := [] }
    ConfigFilePath := "/cfg/three.yaml"
    ConfigFileDirectory := "/cfg" }

/-- The same handlers, which in addition append every call they receive to a list kept
next to the world.  The list is written by the handlers, not by the loop. -/
def Handlers.recording {σ H : Type} (h : Handlers σ H) : Handlers (σ × List (Call H)) H :=
  { newFileExecutor := fun act name s =>
      ((h.newFileExecutor act name s.1).1,
        ((h.newFileExecutor act name s.1).2,
          s.2 ++ [Call.newFileExecutor act name (h.newFileExecutor act name s.1).1.toOption]))
    execute := fun fileExecutor s =>
      ((h.execute fileExecutor s.1).1,
        ((h.execute fileExecutor s.1).2,
          s.2 ++ [Call.execute fileExecutor (h.execute fileExecutor s.1).1.isSome])) }

/-- The name and action of every call of `NewFileExecutor`, in order. -/
def constructorCalls {H : Type} : List (Call H) → Entries FileAction
  | [] => []
  | .newFileExecutor act name _ :: rest => (name, act) :: constructorCalls rest
  | .execute _ _ :: rest => constructorCalls rest

/-- Every handler that `NewFileExecutor` returned is the receiver of the very next call,
an `Execute`; a failed `NewFileExecutor` is followed by no `Execute`; and `Execute` is
called on nothing else. -/
def pairedCalls {H : Type} : List (Call H) → Prop
  | [] => True
  | .newFileExecutor _ _ none :: rest => pairedCalls rest
  | .newFileExecutor _ _ (some built) :: .execute fileExecutor _ :: rest =>
    built = fileExecutor ∧ pairedCalls rest
  | .newFileExecutor _ _ (some _) :: .newFileExecutor _ _ _ :: _ => False
  | [.newFileExecutor _ _ (some _)] => False
  | .execute _ _ :: _ => False

/-! ## Path lemmas -/

theorem isRooted_cleanChars (p : List Char) (h : isRooted p = true) :
    isRooted (cleanChars p) = true := by
  simp only [cleanChars, h, if_true]
  rfl

theorem splitSlash_no_slash (p : List Char) :
    '/' ∉ (splitSlash p).1 ∧ ∀ w ∈ (splitSlash p).2, '/' ∉ w := by
  induction p with
  | nil => simp [splitSlash]
  | cons c cs ih =>
    by_cases hc : c = '/'
    · subst hc
      simp only [splitSlash, if_true]
      refine ⟨by simp, ?_⟩
      intro w hw
      rcases List.mem_cons.1 hw with h | h
      · rw [h]; exact ih.1
      · exact ih.2 w h
    · simp only [splitSlash, if_neg hc]
      refine ⟨?_, ih.2⟩
      intro hm
      rcases List.mem_cons.1 hm with h | h
      · exact hc h.symm
      · exact ih.1 h

theorem pathElems_no_slash (p : List Char) : ∀ w ∈ pathElems p, '/' ∉ w := by
  intro w hw
  rcases List.mem_cons.1 hw with h | h
  · rw [h]; exact (splitSlash_no_slash p).1
  · exact (splitSlash_no_slash p).2 w h

theorem cleanStep_rooted_plain (stack : List (List Char)) (c : List Char)
    (hs : ∀ w ∈ stack, PlainElem w) (hc : '/' ∉ c) :
    ∀ w ∈ cleanStep true stack c, PlainElem w := by
  unfold cleanStep
  split
  · exact hs
  · rename_i h1
    split
    · cases stack with
      | nil => simp
      | cons top rest =>
        have htop := hs top (List.mem_cons_self _ _)
        simp only [if_neg htop.2.2.1]
        intro w hw
        exact hs w (List.mem_cons_of_mem _ hw)
    · rename_i h2
      intro w hw
      rcases List.mem_cons.1 hw with h | h
      · rw [h]
        exact ⟨fun h => h1 (Or.inl h), fun h => h1 (Or.inr h), h2, hc⟩
      · exact hs w h

theorem foldl_cleanStep_rooted_plain (cs : List (List Char)) :
    ∀ (stack : List (List Char)), (∀ w ∈ stack, PlainElem w) → (∀ c ∈ cs, '/' ∉ c) →
      ∀ w ∈ cs.foldl (cleanStep true) stack, PlainElem w := by
  induction cs with
  | nil => intro stack hs _; simpa using hs
  | cons c cs ih =>
    intro stack hs hc
    simp only [List.foldl_cons]
    exact ih _ (cleanStep_rooted_plain stack c hs (hc c (List.mem_cons_self _ _)))
      (fun c' h => hc c' (List.mem_cons_of_mem _ h))

theorem cleanStep_plain (r : Bool) (stack : List (List Char)) (c : List Char) (hc : PlainElem c) :
    cleanStep r stack c = c :: stack := by
  unfold cleanStep
  rw [if_neg (by intro h; rcases h with h | h; exact hc.1 h; exact hc.2.1 h), if_neg hc.2.2.1]

theorem foldl_cleanStep_plain (r : Bool) (cs : List (List Char)) :
    ∀ (stack : List (List Char)), (∀ c ∈ cs, PlainElem c) →
      cs.foldl (cleanStep r) stack = cs.reverse ++ stack := by
  induction cs with
  | nil => intro stack _; simp
  | cons c cs ih =>
    intro stack hc
    simp only [List.foldl_cons]
    rw [cleanStep_plain r stack c (hc c (List.mem_cons_self _ _)),
      ih _ (fun c' h => hc c' (List.mem_cons_of_mem _ h))]
    simp

theorem splitSlash_append_slash (w rest : List Char) (hw : '/' ∉ w) :
    splitSlash (w ++ '/' :: rest) = (w, pathElems rest) := by
  induction w with
  | nil => simp [splitSlash, pathElems]
  | cons c cs ih =>
    have hc : c ≠ '/' := fun h => hw (by simp [h])
    have hcs : '/' ∉ cs := fun h => hw (List.mem_cons_of_mem _ h)
    show splitSlash (c :: (cs ++ '/' :: rest)) = _
    simp only [splitSlash, if_neg hc, ih hcs]

theorem splitSlash_no_slash_eq (w : List Char) (hw : '/' ∉ w) : splitSlash w = (w, []) := by
  induction w with
  | nil => simp [splitSlash]
  | cons c cs ih =>
    have hc : c ≠ '/' := fun h => hw (by simp [h])
    have hcs : '/' ∉ cs := fun h => hw (List.mem_cons_of_mem _ h)
    simp only [splitSlash, if_neg hc, ih hcs]

theorem pathElems_joinSlash (w : List Char) (ws : List (List Char))
    (h : ∀ c ∈ w :: ws, '/' ∉ c) : pathElems (joinSlash (w :: ws)) = w :: ws := by
  induction ws generalizing w with
  | nil =>
    simp only [joinSlash, pathElems, splitSlash_no_slash_eq w (h w (List.mem_cons_self _ _))]
  | cons v vs ih =>
    have hw := h w (List.mem_cons_self _ _)
    have hv : ∀ c ∈ v :: vs, '/' ∉ c := fun c hc => h c (List.mem_cons_of_mem _ hc)
    have e := ih v hv
    simp only [pathElems] at e
    simp only [joinSlash, pathElems, splitSlash_append_slash w _ hw]
    rw [e]

theorem cleanChars_rooted_eq (st : List (List Char)) (hst : ∀ c ∈ st, PlainElem c) :
    cleanChars ('/' :: joinSlash st) = '/' :: joinSlash st := by
  cases st with
  | nil => simp [cleanChars, joinSlash, isRooted, pathElems, splitSlash, cleanStep]
  | cons w ws =>
    have hns : ∀ c ∈ w :: ws, '/' ∉ c := fun c hc => (hst c hc).2.2.2
    have hp : pathElems ('/' :: joinSlash (w :: ws)) = [] :: w :: ws := by
      have := pathElems_joinSlash w ws hns
      simp only [pathElems] at this
      simp only [pathElems, splitSlash, if_true]
      rw [this]
    have h0 : cleanStep true [] [] = [] := by simp [cleanStep]
    simp only [cleanChars, isRooted, if_true, hp]
    rw [List.foldl_cons, h0, foldl_cleanStep_plain true (w :: ws) [] hst]
    simp

/-- A rooted path cleans to a fixed point of `filepath.Clean`. -/
theorem cleanChars_idem_of_rooted (p : List Char) (h : isRooted p = true) :
    cleanChars (cleanChars p) = cleanChars p := by
  have hplain := foldl_cleanStep_rooted_plain (pathElems p) [] (by simp) (pathElems_no_slash p)
  have e : cleanChars p = '/' :: joinSlash ((pathElems p).foldl (cleanStep true) []).reverse := by
    simp [cleanChars, h]
  rw [e]
  exact cleanChars_rooted_eq _ (fun c hc => hplain c (List.mem_reverse.1 hc))


/-! ## Strings and `filepath` on strings -/

theorem filepathIsAbs_clean (p : String) (h : filepathIsAbs p = true) :
    filepathIsAbs (filepathClean p) = true :=
  isRooted_cleanChars p.data h

theorem filepathClean_idem (p : String) (h : filepathIsAbs p = true) :
    filepathClean (filepathClean p) = filepathClean p := by
  simp only [filepathClean]
  rw [cleanChars_idem_of_rooted p.data h]

theorem isRooted_append (a b : List Char) (h : isRooted a = true) : isRooted (a ++ b) = true := by
  cases a with
  | nil => simp [isRooted] at h
  | cons c cs =>
    by_cases hc : c = '/'
    · subst hc; rfl
    · simp [isRooted, hc] at h

theorem filepathIsAbs_append (a b : String) (h : filepathIsAbs a = true) :
    filepathIsAbs (a ++ b) = true := by
  simp only [filepathIsAbs, String.data_append]
  exact isRooted_append _ _ h

theorem stringsHasPrefix_append (a b : String) : stringsHasPrefix (a ++ b) a = true := by
  simp [stringsHasPrefix, String.data_append]

theorem dropWhile_append_stop {α : Type} (f : α → Bool) (l : List α) (x : α) (hx : f x = false) :
    (l ++ [x]).dropWhile f = l.dropWhile f ++ [x] := by
  induction l with
  | nil => simp [List.dropWhile, hx]
  | cons y ys ih =>
    by_cases hy : f y = true
    · simp [List.dropWhile, hy, ih]
    · simp [List.dropWhile, hy]

theorem isRooted_dirChars (p : List Char) (h : isRooted p = true) :
    isRooted (dirChars p) = true := by
  cases p with
  | nil => simp [isRooted] at h
  | cons c cs =>
    by_cases hc : c = '/'
    · subst hc
      simp only [dirChars, List.reverse_cons]
      rw [dropWhile_append_stop _ _ _ (by simp)]
      simp [isRooted]
    · simp [isRooted, hc] at h

theorem filepathIsAbs_dir (p : String) (h : filepathIsAbs p = true) :
    filepathIsAbs (filepathDir p) = true :=
  isRooted_cleanChars _ (isRooted_dirChars p.data h)

theorem filepathAbs_of_isAbs (env : Env) (p : String) (h : filepathIsAbs p = true) :
    filepathAbs env p = .ok (filepathClean p) := by
  simp [filepathAbs, h]

theorem filepathIsAbs_ne_empty (p : String) (h : filepathIsAbs p = true) : p ≠ "" := by
  intro e
  subst e
  simp [filepathIsAbs, isRooted] at h

theorem filepathIsAbs_join (wd p : String) (h : filepathIsAbs wd = true) :
    filepathIsAbs (filepathJoin wd p) = true := by
  unfold filepathJoin
  rw [if_pos (filepathIsAbs_ne_empty wd h), String.append_assoc]
  exact filepathIsAbs_clean _ (filepathIsAbs_append wd _ h)

theorem filepathAbs_isAbs (env : Env) (hwd : env.wdAbsolute) (p r : String)
    (h : filepathAbs env p = .ok r) : filepathIsAbs r = true := by
  unfold filepathAbs at h
  split at h
  · rename_i hp
    cases h
    exact filepathIsAbs_clean p hp
  · unfold Env.wdAbsolute at hwd
    split at h
    · cases h
    · rename_i wd hw
      rw [hw] at hwd
      cases h
      exact filepathIsAbs_join wd p hwd

/-! ## What `readFile` returns -/

theorem readFile_ok (env : Env) (path : String) (cfg : ConfigWrapper)
    (h : readFile env path = .ok cfg) :
    ∃ abs, filepathAbs env path = .ok abs ∧ cfg.ConfigFilePath = abs ∧
      cfg.ConfigFileDirectory = filepathDir abs := by
  unfold readFile at h
  split at h
  · cases h
  · rename_i abs ha
    split at h
    · cases h
    · split at h
      · cases h
      · cases h
        exact ⟨abs, ha, rfl, rfl⟩

theorem readFile_dir_isAbs (env : Env) (hwd : env.wdAbsolute) (path : String)
    (cfg : ConfigWrapper) (h : readFile env path = .ok cfg) :
    filepathIsAbs cfg.ConfigFileDirectory = true := by
  obtain ⟨abs, ha, _, hd⟩ := readFile_ok env path cfg h
  rw [hd]
  exact filepathIsAbs_dir abs (filepathAbs_isAbs env hwd path abs ha)

/-- After a successful `readFile`, `filepath.Abs` cannot fail on a path below the directory
of the document: either that directory is absolute or the working directory is known. -/
theorem filepathAbs_total_after_read (env : Env) (path : String) (cfg : ConfigWrapper)
    (h : readFile env path = .ok cfg) (s : String) :
    ∃ r, filepathAbs env (cfg.ConfigFileDirectory ++ s) = .ok r := by
  obtain ⟨abs, ha, _, hd⟩ := readFile_ok env path cfg h
  unfold filepathAbs at ha
  split at ha
  · rename_i hp
    cases ha
    have : filepathIsAbs cfg.ConfigFileDirectory = true := by
      rw [hd]; exact filepathIsAbs_dir _ (filepathIsAbs_clean path hp)
    exact ⟨_, filepathAbs_of_isAbs env _ (filepathIsAbs_append _ s this)⟩
  · split at ha
    · cases ha
    · rename_i wd hw
      unfold filepathAbs
      rw [hw]
      split
      · exact ⟨_, rfl⟩
      · exact ⟨_, rfl⟩

theorem rebaseAction_total_after_read (env : Env) (path : String) (cfg : ConfigWrapper)
    (h : readFile env path = .ok cfg) (a : FileAction) :
    ∃ r, rebaseAction env cfg.ConfigFileDirectory a = .ok r := by
  unfold rebaseAction
  obtain ⟨r, hr⟩ := filepathAbs_total_after_read env path cfg h ("/" ++ a.Source)
  rw [← String.append_assoc] at hr
  rw [hr]
  dsimp only
  split
  · exact ⟨_, rfl⟩
  · exact ⟨_, rfl⟩

theorem rebaseAction_of_isAbs (env : Env) (dir : String) (hd : filepathIsAbs dir = true)
    (a : FileAction) :
    rebaseAction env dir a = .ok
      { Source := filepathClean (dir ++ "/" ++ a.Source)
        Destination := if stringsHasPrefix a.Destination "." then dir ++ "/" ++ a.Destination
                       else a.Destination } := by
  unfold rebaseAction
  have : filepathIsAbs (dir ++ "/" ++ a.Source) = true := by
    rw [String.append_assoc]; exact filepathIsAbs_append _ _ hd
  rw [filepathAbs_of_isAbs env _ this]
  dsimp only
  split <;> rfl


/-! ## Go maps -/

theorem Entries.lookup_store {V : Type} (k k' : String) (v : V) (m : Entries V) :
    Entries.lookup k (Entries.store k' v m) = if k' = k then some v else Entries.lookup k m := by
  induction m with
  | nil => simp [Entries.store, Entries.lookup]
  | cons e rest ih =>
    obtain ⟨k0, v0⟩ := e
    by_cases h0 : k0 = k'
    · subst h0
      by_cases h1 : k0 = k <;> simp [Entries.store, Entries.lookup, h1]
    · by_cases h1 : k0 = k
      · subst h1
        have h2 : ¬ k' = k0 := fun h => h0 h.symm
        simp [Entries.store, Entries.lookup, h0, h2]
      · simp [Entries.store, Entries.lookup, h0, h1, ih]

theorem Entries.lookup_eq_none_of_not_mem {V : Type} (k : String) (m : Entries V)
    (h : k ∉ m.map Prod.fst) : Entries.lookup k m = none := by
  induction m with
  | nil => rfl
  | cons e rest ih =>
    obtain ⟨k0, v0⟩ := e
    simp only [List.map_cons, List.mem_cons, not_or] at h
    have h0 : ¬ k0 = k := fun e => h.1 e.symm
    simp [Entries.lookup, h0, ih h.2]

/-! ## The merge of one document -/

/-- The file-action loop succeeds when no rebasing fails, and then every key of the
document holds its rebased action while every other key keeps what the target held. -/
theorem appendFileActions_spec (env : Env) (dir : String)
    (htot : ∀ a, ∃ r, rebaseAction env dir a = .ok r) (es : Entries FileAction) :
    ∀ (m : Entries FileAction), es.keysUnique →
      ∃ m', appendFileActions env dir es m = .ok m' ∧
        ∀ k, (Entries.lookup k es = none → Entries.lookup k m' = Entries.lookup k m) ∧
          (∀ a, Entries.lookup k es = some a →
            ∃ r, rebaseAction env dir a = .ok r ∧ Entries.lookup k m' = some r) := by
  induction es with
  | nil =>
    intro m _
    exact ⟨m, rfl, fun k => ⟨fun _ => rfl, fun a h => by simp [Entries.lookup] at h⟩⟩
  | cons e rest ih =>
    obtain ⟨key, val⟩ := e
    intro m hu
    simp only [Entries.keysUnique, List.map_cons, List.nodup_cons] at hu
    obtain ⟨r, hr⟩ := htot val
    obtain ⟨m', hm', hk⟩ := ih (Entries.store key r m) hu.2
    refine ⟨m', by simp only [appendFileActions, hr, hm'], ?_⟩
    intro k
    by_cases h0 : key = k
    · subst h0
      have hnone := Entries.lookup_eq_none_of_not_mem key rest hu.1
      refine ⟨fun h => by simp [Entries.lookup] at h, ?_⟩
      intro a ha
      simp only [Entries.lookup, if_true, Option.some.injEq] at ha
      subst ha
      refine ⟨r, hr, ?_⟩
      rw [(hk key).1 hnone, Entries.lookup_store]
      simp
    · simp only [Entries.lookup, if_neg h0]
      refine ⟨fun h => ?_, fun a ha => (hk k).2 a ha⟩
      rw [(hk k).1 h, Entries.lookup_store, if_neg h0]

theorem appendPackageActions_lookup (es : Entries PackageAction) :
    ∀ (m : Entries PackageAction), es.keysUnique →
      ∀ k, Entries.lookup k (appendPackageActions es m) =
        match Entries.lookup k es with
        | some a => some a
        | none => Entries.lookup k m := by
  induction es with
  | nil => intro m _ k; rfl
  | cons e rest ih =>
    obtain ⟨key, val⟩ := e
    intro m hu k
    simp only [Entries.keysUnique, List.map_cons, List.nodup_cons] at hu
    simp only [appendPackageActions]
    rw [ih _ hu.2 k, Entries.lookup_store]
    by_cases h0 : key = k
    · subst h0
      simp [Entries.lookup, Entries.lookup_eq_none_of_not_mem key rest hu.1]
    · simp [Entries.lookup, h0]

theorem GoMap.madeIfNil_eq_range {V : Type} (m : GoMap V) : m.madeIfNil = m.range := by
  cases m <;> rfl

/-- When no rebasing fails, the merge succeeds, changes only the two maps of the
accumulator, and leaves under every key of the document its rebased action. -/
theorem appendActionsToGlobalConfig_spec_of_total (env : Env) (cfg acc : ConfigWrapper)
    (htot : ∀ a, ∃ r, rebaseAction env cfg.ConfigFileDirectory a = .ok r)
    (hu : cfg.Config.FileActions.range.keysUnique) :
    ∃ acc', appendActionsToGlobalConfig env cfg acc = .ok acc' ∧
      acc'.ConfigFileDirectory = acc.ConfigFileDirectory ∧
      acc'.ConfigFilePath = acc.ConfigFilePath ∧
      acc'.Config.Includes = acc.Config.Includes ∧
      acc'.Config.PackageActions =
        some (appendPackageActions cfg.Config.PackageActions.range acc.Config.PackageActions.range) ∧
      (∃ m', appendFileActions env cfg.ConfigFileDirectory cfg.Config.FileActions.range
          acc.Config.FileActions.range = .ok m' ∧ acc'.Config.FileActions = some m') ∧
      ∀ k, (cfg.Config.FileActions.lookup k = none →
              acc'.Config.FileActions.lookup k = acc.Config.FileActions.lookup k) ∧
        (∀ a, cfg.Config.FileActions.lookup k = some a →
          ∃ r, rebaseAction env cfg.ConfigFileDirectory a = .ok r ∧
            acc'.Config.FileActions.lookup k = some r) := by
  obtain ⟨m', hm', hk⟩ := appendFileActions_spec env cfg.ConfigFileDirectory
    htot cfg.Config.FileActions.range acc.Config.FileActions.range hu
  refine ⟨{ acc with
            Config := { acc.Config with
                        FileActions := some m'
                        PackageActions := some (appendPackageActions
                          cfg.Config.PackageActions.range acc.Config.PackageActions.range) } },
    ?_, rfl, rfl, rfl, rfl, ⟨m', hm', rfl⟩, hk⟩
  unfold appendActionsToGlobalConfig
  simp only [GoMap.madeIfNil_eq_range, hm']

/-- The merge of a document that `readFile` returned succeeds, changes only the two maps of
the accumulator, and leaves under every key of the document its rebased action. -/
theorem appendActionsToGlobalConfig_spec (env : Env) (path : String)
    (cfg acc : ConfigWrapper) (h : readFile env path = .ok cfg)
    (hu : cfg.Config.FileActions.range.keysUnique) :
    ∃ acc', appendActionsToGlobalConfig env cfg acc = .ok acc' ∧
      acc'.ConfigFileDirectory = acc.ConfigFileDirectory ∧
      acc'.ConfigFilePath = acc.ConfigFilePath ∧
      acc'.Config.Includes = acc.Config.Includes ∧
      acc'.Config.PackageActions =
        some (appendPackageActions cfg.Config.PackageActions.range acc.Config.PackageActions.range) ∧
      ∀ k, (cfg.Config.FileActions.lookup k = none →
              acc'.Config.FileActions.lookup k = acc.Config.FileActions.lookup k) ∧
        (∀ a, cfg.Config.FileActions.lookup k = some a →
          ∃ r, rebaseAction env cfg.ConfigFileDirectory a = .ok r ∧
            acc'.Config.FileActions.lookup k = some r) := by
  obtain ⟨acc', h1, h2, h3, h4, h5, -, h7⟩ := appendActionsToGlobalConfig_spec_of_total env cfg acc
    (rebaseAction_total_after_read env path cfg h) hu
  exact ⟨acc', h1, h2, h3, h4, h5, h7⟩

theorem appendFileActions_total (env : Env) (dir : String)
    (htot : ∀ a, ∃ r, rebaseAction env dir a = .ok r) (es : Entries FileAction) :
    ∀ (m : Entries FileAction), ∃ m', appendFileActions env dir es m = .ok m' := by
  induction es with
  | nil => intro m; exact ⟨m, rfl⟩
  | cons e rest ih =>
    obtain ⟨key, val⟩ := e
    intro m
    obtain ⟨r, hr⟩ := htot val
    obtain ⟨m', hm'⟩ := ih (Entries.store key r m)
    exact ⟨m', by simp only [appendFileActions, hr, hm']⟩

/-- The merge of a document that `readFile` returned never fails. -/
theorem appendActionsToGlobalConfig_total (env : Env) (path : String)
    (cfg acc : ConfigWrapper) (h : readFile env path = .ok cfg) :
    ∃ acc', appendActionsToGlobalConfig env cfg acc = .ok acc' := by
  obtain ⟨m', hm'⟩ := appendFileActions_total env cfg.ConfigFileDirectory
    (rebaseAction_total_after_read env path cfg h) cfg.Config.FileActions.range
    acc.Config.FileActions.madeIfNil
  unfold appendActionsToGlobalConfig
  simp only [hm']
  exact ⟨_, rfl⟩

theorem Entries.store_keys {V : Type} (k : String) (v : V) (m : Entries V) :
    (Entries.store k v m).map Prod.fst =
      if k ∈ m.map Prod.fst then m.map Prod.fst else m.map Prod.fst ++ [k] := by
  induction m with
  | nil => simp [Entries.store]
  | cons e rest ih =>
    obtain ⟨k0, v0⟩ := e
    by_cases h0 : k0 = k
    · subst h0
      simp [Entries.store]
    · have h1 : ¬ k = k0 := fun e => h0 e.symm
      simp only [Entries.store, if_neg h0, List.map_cons, ih, List.mem_cons, h1, false_or]
      split <;> simp

theorem Entries.store_keysUnique {V : Type} (k : String) (v : V) (m : Entries V)
    (hu : m.keysUnique) : (Entries.store k v m).keysUnique := by
  unfold Entries.keysUnique at hu ⊢
  rw [Entries.store_keys]
  split
  · exact hu
  · rename_i hk
    exact List.nodup_append.2 ⟨hu, List.nodup_singleton k, by
      intro x hx hx'
      simp only [List.mem_singleton] at hx'
      exact hk (hx' ▸ hx)⟩

theorem appendFileActions_keysUnique (env : Env) (dir : String) (es : Entries FileAction) :
    ∀ (m m' : Entries FileAction), m.keysUnique → appendFileActions env dir es m = .ok m' →
      m'.keysUnique := by
  induction es with
  | nil =>
    intro m m' hu h
    simp only [appendFileActions, Except.ok.injEq] at h
    exact h ▸ hu
  | cons e rest ih =>
    obtain ⟨key, val⟩ := e
    intro m m' hu h
    simp only [appendFileActions] at h
    split at h
    · cases h
    · exact ih _ m' (Entries.store_keysUnique _ _ m hu) h

theorem appendPackageActions_keysUnique (es : Entries PackageAction) :
    ∀ (m : Entries PackageAction), m.keysUnique → (appendPackageActions es m).keysUnique := by
  induction es with
  | nil => intro m hu; exact hu
  | cons e rest ih =>
    obtain ⟨key, val⟩ := e
    intro m hu
    exact ih _ (Entries.store_keysUnique _ _ m hu)

/-! ## `loadConfig` over a finite include tree -/

theorem mergeDocs_append (env : Env) (ds es : List ConfigWrapper) :
    ∀ (acc mid out : ConfigWrapper), mergeDocs env ds acc = .ok mid →
      mergeDocs env es mid = .ok out → mergeDocs env (ds ++ es) acc = .ok out := by
  induction ds with
  | nil =>
    intro acc mid out h1 h2
    simp only [mergeDocs, Except.ok.injEq] at h1
    subst h1
    simpa using h2
  | cons d ds ih =>
    intro acc mid out h1 h2
    simp only [mergeDocs] at h1
    split at h1
    · cases h1
    · rename_i acc1 ha
      simp only [List.cons_append, mergeDocs, ha]
      exact ih acc1 mid out h1 h2

mutual
/-- On the include tree of `path`, `loadConfig` with enough fuel returns, and the
accumulator it leaves is the result of merging the documents of the tree in pre-order. -/
theorem loadConfig_on_tree (env : Env) :
    ∀ (t : IncTree) (path : String) (appendToThis : Option ConfigWrapper) (fuel : Nat),
      t.loadsFrom env path = true → t.depth ≤ fuel →
      ∃ acc, mergeDocs env t.docs (appendToThis.getD t.root) = .ok acc ∧
        loadConfig fuel env appendToThis path =
          .ok (match appendToThis with
               | none => acc
               | some _ => t.root, acc)
  | .node doc children, path, appendToThis, fuel, hl, hd => by
    simp only [IncTree.loadsFrom, Bool.and_eq_true, decide_eq_true_eq] at hl
    simp only [IncTree.depth] at hd
    obtain ⟨fuel', rfl⟩ : ∃ n, fuel = n + 1 := ⟨fuel - 1, by omega⟩
    obtain ⟨acc1, ha1⟩ := appendActionsToGlobalConfig_total env path doc
      (appendToThis.getD doc) hl.1
    obtain ⟨acc, hm, hi⟩ := includeLoop_on_forest env children doc.ConfigFileDirectory
      doc.Config.Includes acc1 fuel' hl.2 (by omega)
    refine ⟨acc, by simp only [IncTree.docs, IncTree.root, mergeDocs, ha1, hm], ?_⟩
    simp only [loadConfig, hl.1, ha1, hi, IncTree.root]
    cases appendToThis <;> rfl
/-- On the include trees of a list of includes, the include loop with enough fuel returns,
and the accumulator it leaves is the result of merging the documents of the trees in
pre-order. -/
theorem includeLoop_on_forest (env : Env) :
    ∀ (f : IncForest) (dir : String) (incs : List String) (acc : ConfigWrapper) (fuel : Nat),
      f.loadsFrom env dir incs = true → f.depth ≤ fuel →
      ∃ out, mergeDocs env f.docs acc = .ok out ∧
        includeLoop (loadConfig fuel env) dir incs acc = .ok out
  | .nil, dir, [], acc, fuel, _, _ => ⟨acc, rfl, rfl⟩
  | .nil, dir, _ :: _, acc, fuel, hl, _ => by simp [IncForest.loadsFrom] at hl
  | .cons _ _, dir, [], acc, fuel, hl, _ => by simp [IncForest.loadsFrom] at hl
  | .cons first rest, dir, inc :: incs, acc, fuel, hl, hd => by
    simp only [IncForest.loadsFrom, Bool.and_eq_true] at hl
    simp only [IncForest.depth] at hd
    obtain ⟨mid, hm1, hl1⟩ := loadConfig_on_tree env first (dir ++ "/" ++ inc) (some acc) fuel
      hl.1 (le_trans (le_max_left _ _) hd)
    obtain ⟨out, hm2, hl2⟩ := includeLoop_on_forest env rest dir incs mid fuel
      hl.2 (le_trans (le_max_right _ _) hd)
    refine ⟨out, ?_, ?_⟩
    · simp only [IncForest.docs]
      exact mergeDocs_append env _ _ acc mid out (by simpa using hm1) hm2
    · simp only [includeLoop, hl1, hl2]
end

mutual
/-- Every document of an include tree is what `readFile` returned for some path. -/
theorem incTree_docs_read (env : Env) :
    ∀ (t : IncTree) (path : String), t.loadsFrom env path = true →
      ∀ d ∈ t.docs, ∃ p, readFile env p = .ok d
  | .node doc children, path, hl, d, hd => by
    simp only [IncTree.loadsFrom, Bool.and_eq_true, decide_eq_true_eq] at hl
    simp only [IncTree.docs, List.mem_cons] at hd
    rcases hd with h | h
    · exact ⟨path, h ▸ hl.1⟩
    · exact incForest_docs_read env children _ _ hl.2 d h
/-- Every document of the include trees of a document is what `readFile` returned for
some path. -/
theorem incForest_docs_read (env : Env) :
    ∀ (f : IncForest) (dir : String) (incs : List String), f.loadsFrom env dir incs = true →
      ∀ d ∈ f.docs, ∃ p, readFile env p = .ok d
  | .nil, _, _, _, d, hd => by simp [IncForest.docs] at hd
  | .cons _ _, _, [], hl, _, _ => by simp [IncForest.loadsFrom] at hl
  | .cons first rest, dir, inc :: incs, hl, d, hd => by
    simp only [IncForest.loadsFrom, Bool.and_eq_true] at hl
    simp only [IncForest.docs, List.mem_append] at hd
    rcases hd with h | h
    · exact incTree_docs_read env first _ hl.1 d h
    · exact incForest_docs_read env rest dir incs hl.2 d h
end

theorem IncTree.root_mem_docs (t : IncTree) : t.root ∈ t.docs := by
  cases t
  simp [IncTree.root, IncTree.docs]

/-- The merges of a list of read documents succeed; a key no document declares keeps what
the accumulator held, and a declared key holds the rebased action of the last document
that declares it. -/
theorem mergeDocs_spec (env : Env) (docs : List ConfigWrapper) :
    ∀ (acc : ConfigWrapper),
      (∀ d ∈ docs, (∃ p, readFile env p = .ok d) ∧ d.Config.FileActions.range.keysUnique) →
      ∃ out, mergeDocs env docs acc = .ok out ∧
        (∀ k, (∀ d ∈ docs, d.Config.FileActions.lookup k = none) →
          out.Config.FileActions.lookup k = acc.Config.FileActions.lookup k) ∧
        (∀ k pre d post a, docs = pre ++ d :: post → d.Config.FileActions.lookup k = some a →
          (∀ d' ∈ post, d'.Config.FileActions.lookup k = none) →
          ∃ r, rebaseAction env d.ConfigFileDirectory a = .ok r ∧
            out.Config.FileActions.lookup k = some r) := by
  induction docs with
  | nil =>
    intro acc _
    refine ⟨acc, rfl, fun _ _ => rfl, ?_⟩
    intro k pre d post a h
    simp at h
  | cons d0 ds ih =>
    intro acc hall
    obtain ⟨⟨p0, hp0⟩, hu0⟩ := hall d0 (List.mem_cons_self _ _)
    obtain ⟨acc1, ha1, -, -, -, -, hk1⟩ := appendActionsToGlobalConfig_spec env p0 d0 acc hp0 hu0
    obtain ⟨out, hout, hnone, hlast⟩ := ih acc1 (fun d hd => hall d (List.mem_cons_of_mem _ hd))
    refine ⟨out, by simp only [mergeDocs, ha1, hout], ?_, ?_⟩
    · intro k hk
      rw [hnone k (fun d hd => hk d (List.mem_cons_of_mem _ hd))]
      exact (hk1 k).1 (hk d0 (List.mem_cons_self _ _))
    · intro k pre d post a hsplit hda hpost
      cases pre with
      | nil =>
        simp only [List.nil_append, List.cons.injEq] at hsplit
        obtain ⟨rfl, rfl⟩ := hsplit
        obtain ⟨r, hr, hlk⟩ := (hk1 k).2 a hda
        exact ⟨r, hr, by rw [hnone k hpost, hlk]⟩
      | cons x pre' =>
        simp only [List.cons_append, List.cons.injEq] at hsplit
        exact hlast k pre' d post a hsplit.2 hda hpost

theorem exists_last_declaring (k : String) (docs : List ConfigWrapper)
    (h : ∃ d ∈ docs, (d.Config.FileActions.lookup k).isSome = true) :
    ∃ pre d post a, docs = pre ++ d :: post ∧ d.Config.FileActions.lookup k = some a ∧
      ∀ d' ∈ post, d'.Config.FileActions.lookup k = none := by
  induction docs with
  | nil => simp at h
  | cons x xs ih =>
    by_cases hx : ∃ d ∈ xs, (d.Config.FileActions.lookup k).isSome = true
    · obtain ⟨pre, d, post, a, hs, ha, hp⟩ := ih hx
      exact ⟨x :: pre, d, post, a, by rw [hs]; rfl, ha, hp⟩
    · obtain ⟨d, hd, hsome⟩ := h
      have hxs : ∀ d' ∈ xs, d'.Config.FileActions.lookup k = none := by
        intro d' hd'
        by_contra hne
        exact hx ⟨d', hd', Option.isSome_iff_ne_none.2 hne⟩
      rcases List.mem_cons.1 hd with h1 | h1
      · subst h1
        obtain ⟨a, ha⟩ := Option.isSome_iff_exists.1 hsome
        exact ⟨[], d, xs, a, rfl, ha, hxs⟩
      · rw [hxs d h1] at hsome
        simp at hsome

/-- After the merges of a list of read documents, an entry of the accumulator under a key
that the starting accumulator did not hold is the rebased action of a document of the
list. -/
theorem mergeDocs_entry_origin (env : Env) (docs : List ConfigWrapper)
    (acc out : ConfigWrapper)
    (hall : ∀ d ∈ docs, (∃ p, readFile env p = .ok d) ∧ d.Config.FileActions.range.keysUnique)
    (hm : mergeDocs env docs acc = .ok out) (k : String) (r : FileAction)
    (hr : out.Config.FileActions.lookup k = some r) :
    ((∀ d ∈ docs, d.Config.FileActions.lookup k = none) ∧
        acc.Config.FileActions.lookup k = some r) ∨
      ∃ d ∈ docs, ∃ a, d.Config.FileActions.lookup k = some a ∧
        rebaseAction env d.ConfigFileDirectory a = .ok r := by
  obtain ⟨out', hout, hnone, hlast⟩ := mergeDocs_spec env docs acc hall
  rw [hm] at hout
  cases hout
  by_cases hex : ∃ d ∈ docs, (d.Config.FileActions.lookup k).isSome = true
  · obtain ⟨pre, d, post, a, hs, ha, hp⟩ := exists_last_declaring k docs hex
    obtain ⟨r', hr', hlk⟩ := hlast k pre d post a hs ha hp
    rw [hr] at hlk
    cases hlk
    exact Or.inr ⟨d, by rw [hs]; simp, a, ha, hr'⟩
  · have hall' : ∀ d ∈ docs, d.Config.FileActions.lookup k = none := by
      intro d hd
      by_contra hne
      exact hex ⟨d, hd, Option.isSome_iff_ne_none.2 hne⟩
    exact Or.inl ⟨hall', by rw [← hnone k hall', hr]⟩

/-! ## Last writer wins over the include tree -/

/-- On a finite, fully loadable include tree `loadConfig(nil, root)` returns, for every
sufficient fuel, the result of merging the documents of the tree in pre-order into the
root document. -/
theorem loadConfig_nil_eq_mergeDocs (env : Env) (root : String) (t : IncTree)
    (hl : t.loadsFrom env root = true) :
    ∃ acc, mergeDocs env t.docs t.root = .ok acc ∧
      ∀ fuel, t.depth ≤ fuel → loadConfig fuel env none root = .ok (acc, acc) := by
  obtain ⟨acc, hm, -⟩ := loadConfig_on_tree env t root none t.depth hl (le_refl _)
  simp only [Option.getD_none] at hm
  refine ⟨acc, hm, ?_⟩
  intro fuel hf
  obtain ⟨acc2, hm2, hl2⟩ := loadConfig_on_tree env t root none fuel hl hf
  simp only [Option.getD_none] at hm2
  rw [hm] at hm2
  cases hm2
  exact hl2

/-- C1: when the include tree of `root` is finite and every document of it loads,
`loadConfig(nil, root)` returns for every sufficient fuel, and in the accumulator it leaves
the keys of `fileActions` are exactly the keys some document of the tree declares, each
holding the rebased action of the last document, in depth-first include-declaration
pre-order, that declares it. -/
theorem loadConfig_last_declaration_wins (env : Env) (root : String) (t : IncTree)
    (hl : t.loadsFrom env root = true)
    (hu : ∀ d ∈ t.docs, d.Config.FileActions.range.keysUnique) :
    ∃ acc, (∀ fuel, t.depth ≤ fuel → loadConfig fuel env none root = .ok (acc, acc)) ∧
      (∀ k, (acc.Config.FileActions.lookup k).isSome = true ↔
        ∃ d ∈ t.docs, (d.Config.FileActions.lookup k).isSome = true) ∧
      (∀ k pre d post a, t.docs = pre ++ d :: post →
        d.Config.FileActions.lookup k = some a →
        (∀ d' ∈ post, d'.Config.FileActions.lookup k = none) →
        ∃ r, rebaseAction env d.ConfigFileDirectory a = .ok r ∧
          acc.Config.FileActions.lookup k = some r) := by
  obtain ⟨acc, hm, hload⟩ := loadConfig_nil_eq_mergeDocs env root t hl
  obtain ⟨out, hout, hnone, hlast⟩ := mergeDocs_spec env t.docs t.root
    (fun d hd => ⟨incTree_docs_read env t root hl d hd, hu d hd⟩)
  rw [hm] at hout
  cases hout
  refine ⟨acc, hload, ?_, hlast⟩
  intro k
  constructor
  · intro hs
    by_contra hno
    have hall : ∀ d ∈ t.docs, d.Config.FileActions.lookup k = none := by
      intro d hd
      by_contra hne
      exact hno ⟨d, hd, Option.isSome_iff_ne_none.2 hne⟩
    rw [hnone k hall, hall t.root t.root_mem_docs] at hs
    simp at hs
  · intro hex
    obtain ⟨pre, d, post, a, hs, ha, hp⟩ := exists_last_declaring k t.docs hex
    obtain ⟨r, -, hr⟩ := hlast k pre d post a hs ha hp
    rw [hr]
    rfl

/-- C1 on the example: the root `/cfg/root.yaml` and its one include `/cfg/sub/sub.yaml`
both declare `x`, with sources `rootrc` and `subrc`; the tree loads, the theorem applies to
it, and the entry left under `x` has the source of the include, rebased to `/cfg/sub`. -/
theorem loadConfig_last_declaration_wins_witness :
    rootTree.loadsFrom exampleEnv "/cfg/root.yaml" = true ∧
    (∀ d ∈ rootTree.docs, d.Config.FileActions.range.keysUnique) ∧
    (∃ acc, (∀ fuel, rootTree.depth ≤ fuel →
        loadConfig fuel exampleEnv none "/cfg/root.yaml" = .ok (acc, acc)) ∧
      (∀ k, (acc.Config.FileActions.lookup k).isSome = true ↔
        ∃ d ∈ rootTree.docs, (d.Config.FileActions.lookup k).isSome = true) ∧
      (∀ k pre d post a, rootTree.docs = pre ++ d :: post →
        d.Config.FileActions.lookup k = some a →
        (∀ d' ∈ post, d'.Config.FileActions.lookup k = none) →
        ∃ r, rebaseAction exampleEnv d.ConfigFileDirectory a = .ok r ∧
          acc.Config.FileActions.lookup k = some r)) ∧
    accumulatedEntry 2 exampleEnv "/cfg/root.yaml" "x" =
      some { Source := "/cfg/sub/subrc", Destination := "~/.x" } :=
  ⟨by decide, by decide,
    loadConfig_last_declaration_wins exampleEnv "/cfg/root.yaml" rootTree (by decide) (by decide),
    by decide⟩

/-! ## `readConfigs` with several files, the empty run, and the file-action loop -/

/-- C2 at a concrete input: with the two top-level files `/cfg/root.yaml` (which declares
`x` and `y`) and `/cfg/second.yaml` (which declares `z`), `readConfigs` sets `finalConf` to
the second document as `readFile` returned it: it holds `z` alone, not rebased, and neither
`x` nor `y`, because `loadConfig` returns the freshly read document and not the accumulator
it merged into. -/
theorem readConfigs_two_files_finalConf :
    readConfigs 2 exampleEnv ["/cfg/root.yaml", "/cfg/second.yaml"] = .ok (some secondDoc) ∧
      secondDoc.Config.FileActions.lookup "x" = none ∧
      secondDoc.Config.FileActions.lookup "y" = none ∧
      secondDoc.Config.FileActions.lookup "z" =
        some { Source := "zrc", Destination := "./z.out" } := by
  decide

/-- With a non-nil accumulator `loadConfig` returns the document it read, unmerged. -/
theorem loadConfig_some_returns_read (fuel : Nat) (env : Env) (acc : ConfigWrapper)
    (path : String) (r : ConfigWrapper × ConfigWrapper)
    (h : loadConfig fuel env (some acc) path = .ok r) : readFile env path = .ok r.1 := by
  cases fuel with
  | zero => simp [loadConfig] at h
  | succ n =>
    simp only [loadConfig] at h
    split at h
    · cases h
    · rename_i cfg hc
      split at h
      · cases h
      · split at h
        · cases h
        · cases h
        · cases h
          exact hc

theorem readConfigsLoop_returns_last_read (fuel : Nat) (env : Env) (last : String)
    (files : List String) :
    ∀ (cfg : ConfigWrapper) (conf : Option ConfigWrapper),
      readConfigsLoop fuel env (files ++ [last]) (some cfg) = .ok conf →
      ∃ doc, readFile env last = .ok doc ∧ conf = some doc := by
  induction files with
  | nil =>
    intro cfg conf h
    simp only [List.nil_append, readConfigsLoop] at h
    cases hr : loadConfig fuel env (some cfg) last with
    | ok r =>
      rw [hr] at h
      simp only [readConfigsLoop, Run.ok.injEq] at h
      exact ⟨r.1, loadConfig_some_returns_read fuel env cfg last r hr, h.symm⟩
    | err e => rw [hr] at h; cases h
    | outOfFuel => rw [hr] at h; cases h
  | cons f fs ih =>
    intro cfg conf h
    have h' : readConfigsLoop fuel env (f :: (fs ++ [last])) (some cfg) = .ok conf := h
    simp only [readConfigsLoop] at h'
    cases hr : loadConfig fuel env (some cfg) f with
    | ok r => rw [hr] at h'; exact ih r.1 conf h'
    | err e => rw [hr] at h'; cases h'
    | outOfFuel => rw [hr] at h'; cases h'

/-- With two or more listed files, whenever `readConfigs` returns without error the
`finalConf` it sets is the last listed document exactly as `readFile` returned it. -/
theorem readConfigs_finalConf_is_last_read (fuel : Nat) (env : Env) (first last : String)
    (between : List String) (conf : Option ConfigWrapper)
    (h : readConfigs fuel env (first :: (between ++ [last])) = .ok conf) :
    ∃ doc, readFile env last = .ok doc ∧ conf = some doc := by
  unfold readConfigs at h
  rw [if_neg (by simp)] at h
  simp only [readConfigsLoop] at h
  cases hr : loadConfig fuel env none first with
  | ok r => rw [hr] at h; exact readConfigsLoop_returns_last_read fuel env last between r.1 conf h
  | err e => rw [hr] at h; cases h
  | outOfFuel => rw [hr] at h; cases h

/-- C3 at the empty list: `readConfigs` returns with `finalConf` still nil, and
`executeFiles` then reads `a.finalConf.Config` through the nil pointer, so the run ends in a
runtime fault instead of returning nil. -/
theorem StartConfiguring_empty_configs_faults {σ H : Type} (fuel : Nat) (env : Env)
    (h : Handlers σ H) (w : σ) :
    readConfigs fuel env [] = .ok none ∧
      StartConfiguring fuel env h [] w = (.nilDereference, [], w) := by
  constructor <;> rfl

theorem executeFilesLoop_log {σ H : Type} (h : Handlers σ H) (es : Entries FileAction) :
    ∀ (w : σ), constructedEntries (executeFilesLoop h es w).1 = es ∧
      executedEntries (executeFilesLoop h es w).1 = builtEntries (executeFilesLoop h es w).1 := by
  induction es with
  | nil => intro w; exact ⟨rfl, rfl⟩
  | cons e rest ih =>
    obtain ⟨name, act⟩ := e
    intro w
    simp only [executeFilesLoop]
    split
    · rename_i e1 w1 _
      simp only [constructedEntries, executedEntries, builtEntries]
      exact ⟨by rw [(ih w1).1], (ih w1).2⟩
    · rename_i fe w1 _
      simp only [constructedEntries, executedEntries, builtEntries]
      exact ⟨by rw [(ih _).1], by rw [(ih _).2]⟩

theorem recording_newFileExecutor {σ H : Type} (h : Handlers σ H) (act : FileAction)
    (name : String) (w w1 : σ) (log : List (Call H)) (res : Except GoError H)
    (hq : h.newFileExecutor act name w = (res, w1)) :
    h.recording.newFileExecutor act name (w, log) =
      (res, (w1, log ++ [Call.newFileExecutor act name res.toOption])) := by
  simp only [Handlers.recording, hq]

theorem recording_execute {σ H : Type} (h : Handlers σ H) (fileExecutor : H)
    (w w1 : σ) (log : List (Call H)) (res : Option GoError)
    (hx : h.execute fileExecutor w = (res, w1)) :
    h.recording.execute fileExecutor (w, log) =
      (res, (w1, log ++ [Call.execute fileExecutor res.isSome])) := by
  simp only [Handlers.recording, hx]

/-- The loop run with recording handlers does what it does with the handlers themselves,
and the calls the handlers record are one `NewFileExecutor` per entry, in order, each
returned handler being executed at once. -/
theorem executeFilesLoop_recording {σ H : Type} (h : Handlers σ H) (es : Entries FileAction) :
    ∀ (w : σ) (log : List (Call H)),
      ∃ calls, executeFilesLoop h.recording es (w, log) =
          ((executeFilesLoop h es w).1, ((executeFilesLoop h es w).2, log ++ calls)) ∧
        constructorCalls calls = es ∧ pairedCalls calls := by
  induction es with
  | nil => intro w log; exact ⟨[], by simp [executeFilesLoop], rfl, trivial⟩
  | cons e rest ih =>
    obtain ⟨name, act⟩ := e
    intro w log
    rcases hq : h.newFileExecutor act name w with ⟨res, w1⟩
    cases res with
    | error err =>
      obtain ⟨calls, hc, hn, hpair⟩ := ih w1 (log ++ [Call.newFileExecutor act name none])
      refine ⟨Call.newFileExecutor act name none :: calls, ?_, ?_, ?_⟩
      · simp only [executeFilesLoop]
        rw [recording_newFileExecutor h act name w w1 log _ hq, hq]
        show (_, _) = (_, _)
        simp only [Except.toOption]
        rw [hc]
        simp
      · simp only [constructorCalls, hn]
      · simpa only [pairedCalls] using hpair
    | ok fileExecutor =>
      rcases hx : h.execute fileExecutor w1 with ⟨xerr, w2⟩
      obtain ⟨calls, hc, hn, hpair⟩ := ih w2
        (log ++ [Call.newFileExecutor act name (some fileExecutor)] ++
          [Call.execute fileExecutor xerr.isSome])
      refine ⟨Call.newFileExecutor act name (some fileExecutor) ::
        Call.execute fileExecutor xerr.isSome :: calls, ?_, ?_, ?_⟩
      · simp only [executeFilesLoop]
        rw [recording_newFileExecutor h act name w w1 log _ hq, hq]
        show (_, _) = (_, _)
        simp only [Except.toOption]
        rw [recording_execute h fileExecutor w1 w2 _ _ hx, hx]
        simp only []
        rw [hc]
        simp
      · simp only [constructorCalls, hn]
      · simp only [pairedCalls]
        exact ⟨trivial, hpair⟩

/-- C5: whatever `NewFileExecutor` and `Execute` return, `executeFiles` on an accumulated
configuration returns nil; the calls the handlers themselves receive are one
`NewFileExecutor` for every entry of `fileActions`, in the order the range yields them,
each returned handler being the receiver of the very next call, an `Execute`, and
`Execute` being called on nothing else; recording the calls does not change the run, and
the log of the loop lists the same constructions and executions. -/
theorem executeFiles_attempts_every_action {σ H : Type} (h : Handlers σ H)
    (conf : ConfigWrapper) (w : σ) :
    (executeFiles h (some conf) w).1 = .returned none ∧
      constructorCalls (executeFiles h.recording (some conf) (w, [])).2.2.2 =
        conf.Config.FileActions.range ∧
      pairedCalls (executeFiles h.recording (some conf) (w, [])).2.2.2 ∧
      executeFiles h (some conf) w =
        ((executeFiles h.recording (some conf) (w, [])).1,
          (executeFiles h.recording (some conf) (w, [])).2.1,
          (executeFiles h.recording (some conf) (w, [])).2.2.1) ∧
      constructedEntries (executeFiles h (some conf) w).2.1 = conf.Config.FileActions.range ∧
      executedEntries (executeFiles h (some conf) w).2.1 =
        builtEntries (executeFiles h (some conf) w).2.1 := by
  obtain ⟨calls, hc, hn, hpair⟩ :=
    executeFilesLoop_recording h conf.Config.FileActions.range w []
  have hlog := executeFilesLoop_log h conf.Config.FileActions.range w
  simp only [executeFiles, hc, List.nil_append]
  exact ⟨trivial, hn, hpair, trivial, hlog.1, hlog.2⟩

/-- Three actions of which the second has an empty destination: its handler is not built,
the other two are built and executed, as the handlers themselves record and as the loop
logs. -/
theorem executeFiles_three_actions_one_invalid :
    (executeFiles exampleHandlers.recording (some threeActions) ((), [])).2.2.2 =
        [.newFileExecutor { Source := "/s/a", Destination := "/d/a" } "a"
            (some { Source := "/s/a", Destination := "/d/a" }),
         .execute { Source := "/s/a", Destination := "/d/a" } false,
         .newFileExecutor { Source := "/s/b", Destination := "" } "b" none,
         .newFileExecutor { Source := "/s/c", Destination := "/d/c" } "c"
            (some { Source := "/s/c", Destination := "/d/c" }),
         .execute { Source := "/s/c", Destination := "/d/c" } false] ∧
      executeFiles exampleHandlers (some threeActions) () =
        (.returned none,
         [.construct "a" { Source := "/s/a", Destination := "/d/a" } true,
          .execute "a" { Source := "/s/a", Destination := "/d/a" } false,
          .construct "b" { Source := "/s/b", Destination := "" } false,
          .construct "c" { Source := "/s/c", Destination := "/d/c" } true,
          .execute "c" { Source := "/s/c", Destination := "/d/c" } false], ()) := by
  decide

/-! ## Failing loads abort the run -/

theorem includeLoop_err_after (load : Option ConfigWrapper → String → Run (ConfigWrapper × ConfigWrapper))
    (dir inc : String) (post : List String) (e : GoError) (pre : List String) :
    ∀ (acc mid : ConfigWrapper), includeLoop load dir pre acc = .ok mid →
      load (some mid) (dir ++ "/" ++ inc) = .err e →
      includeLoop load dir (pre ++ inc :: post) acc = .err e := by
  induction pre with
  | nil =>
    intro acc mid h1 h2
    simp only [includeLoop, Run.ok.injEq] at h1
    subst h1
    simp only [List.nil_append, includeLoop, h2]
  | cons p ps ih =>
    intro acc mid h1 h2
    show includeLoop load dir (p :: (ps ++ inc :: post)) acc = .err e
    simp only [includeLoop] at h1 ⊢
    cases hr : load (some acc) (dir ++ "/" ++ p) with
    | ok r =>
      rw [hr] at h1
      exact ih r.2 mid h1 h2
    | err e' => rw [hr] at h1; cases h1
    | outOfFuel => rw [hr] at h1; cases h1

/-- A load that fails somewhere in the include tree makes `loadConfig` return that error,
whatever the accumulator holds. -/
theorem loadConfig_fails (env : Env) (e : GoError) :
    ∀ (ft : FailTree) (path : String) (acc : Option ConfigWrapper) (fuel : Nat),
      ft.failsFrom env path e = true → ft.depth ≤ fuel → loadConfig fuel env acc path = .err e := by
  intro ft
  induction ft with
  | atFile =>
    intro path acc fuel hf hd
    simp only [FailTree.failsFrom, decide_eq_true_eq] at hf
    simp only [FailTree.depth] at hd
    obtain ⟨n, rfl⟩ : ∃ n, fuel = n + 1 := ⟨fuel - 1, by omega⟩
    simp only [loadConfig, hf]
  | inInclude pre done inc post next ih =>
    intro path acc fuel hf hd
    simp only [FailTree.depth] at hd
    obtain ⟨n, rfl⟩ : ∃ n, fuel = n + 1 := ⟨fuel - 1, by omega⟩
    simp only [FailTree.failsFrom] at hf
    split at hf
    · cases hf
    · rename_i doc hdoc
      simp only [Bool.and_eq_true, decide_eq_true_eq] at hf
      obtain ⟨⟨hinc, hdone⟩, hnext⟩ := hf
      obtain ⟨acc1, ha1⟩ := appendActionsToGlobalConfig_total env path doc (acc.getD doc) hdoc
      obtain ⟨mid, -, hmid⟩ := includeLoop_on_forest env done doc.ConfigFileDirectory pre acc1 n
        hdone (by omega)
      have hfail := ih (doc.ConfigFileDirectory ++ "/" ++ inc) (some mid) n hnext (by omega)
      have hloop := includeLoop_err_after (loadConfig n env) doc.ConfigFileDirectory inc post e
        pre acc1 mid hmid hfail
      simp only [loadConfig, hdoc, ha1, hinc, hloop]

theorem readConfigsLoop_fails (fuel : Nat) (env : Env) (file : String) (post : List String)
    (e : GoError) (hfile : ∀ acc, loadConfig fuel env acc file = .err e) :
    ∀ (trees : List IncTree) (pre : List String) (cfg : Option ConfigWrapper),
      allLoadFrom env trees pre = true → treesDepth trees ≤ fuel →
      readConfigsLoop fuel env (pre ++ file :: post) cfg = .err e := by
  intro trees
  induction trees with
  | nil =>
    intro pre cfg hl _
    cases pre with
    | nil => simp only [List.nil_append, readConfigsLoop, hfile]
    | cons p ps => simp [allLoadFrom] at hl
  | cons t ts ih =>
    intro pre cfg hl hd
    cases pre with
    | nil => simp [allLoadFrom] at hl
    | cons p ps =>
      simp only [allLoadFrom, Bool.and_eq_true] at hl
      simp only [treesDepth] at hd
      obtain ⟨acc, -, hload⟩ := loadConfig_on_tree env t p cfg fuel hl.1
        (le_trans (le_max_left _ _) hd)
      simp only [List.cons_append, readConfigsLoop, hload]
      exact ih ps _ hl.2 (le_trans (le_max_right _ _) hd)

/-- C4: when the listed files before `file` load fully and a load fails with `e`
somewhere in the include tree of `file`, then for every sufficient fuel `loadConfig`
returns `e` whatever accumulator it is given, `readConfigs` returns `e` and sets no
`finalConf`, and `StartConfiguring` returns `e` with no file action attempted and the
world untouched. -/
theorem load_failure_aborts_run {σ H : Type} (env : Env) (h : Handlers σ H) (w : σ)
    (trees : List IncTree) (pre : List String) (file : String) (post : List String)
    (ft : FailTree) (e : GoError)
    (hpre : allLoadFrom env trees pre = true) (hf : ft.failsFrom env file e = true) :
    ∀ fuel, max (treesDepth trees) ft.depth ≤ fuel →
      (∀ acc, loadConfig fuel env acc file = .err e) ∧
      readConfigs fuel env (pre ++ file :: post) = .err e ∧
      StartConfiguring fuel env h (pre ++ file :: post) w = (.returned (some e), [], w) := by
  intro fuel hfuel
  have hfile : ∀ acc, loadConfig fuel env acc file = .err e :=
    fun acc => loadConfig_fails env e ft file acc fuel hf (le_trans (le_max_right _ _) hfuel)
  have hrc : readConfigs fuel env (pre ++ file :: post) = .err e := by
    unfold readConfigs
    rw [if_neg (by simp)]
    exact readConfigsLoop_fails fuel env file post e hfile trees pre none hpre
      (le_trans (le_max_left _ _) hfuel)
  refine ⟨hfile, hrc, ?_⟩
  simp only [StartConfiguring, hrc]

/-- C4 on the example: `/cfg/root.yaml` loads, then `/cfg/outer.yaml` fails at its second
include `broken.yaml`, after its first include has been merged. -/
theorem load_failure_aborts_run_witness :
    allLoadFrom exampleEnv [rootTree] ["/cfg/root.yaml"] = true ∧
    outerFailure.failsFrom exampleEnv "/cfg/outer.yaml"
      "yaml: did not find expected node content" = true ∧
    ∀ fuel, max (treesDepth [rootTree]) outerFailure.depth ≤ fuel →
      (∀ acc, loadConfig fuel exampleEnv acc "/cfg/outer.yaml" =
        .err "yaml: did not find expected node content") ∧
      readConfigs fuel exampleEnv (["/cfg/root.yaml"] ++ "/cfg/outer.yaml" :: ["/cfg/second.yaml"]) =
        .err "yaml: did not find expected node content" ∧
      StartConfiguring fuel exampleEnv exampleHandlers
          (["/cfg/root.yaml"] ++ "/cfg/outer.yaml" :: ["/cfg/second.yaml"]) () =
        (.returned (some "yaml: did not find expected node content"), [], ()) :=
  ⟨by decide, by decide,
    load_failure_aborts_run exampleEnv exampleHandlers () [rootTree] ["/cfg/root.yaml"]
      "/cfg/outer.yaml" ["/cfg/second.yaml"] outerFailure
      "yaml: did not find expected node content" (by decide) (by decide)⟩

/-! ## Rebasing of sources and destinations -/

theorem rebaseAction_destination (env : Env) (dir : String) (a r : FileAction)
    (h : rebaseAction env dir a = .ok r) :
    r.Destination = if stringsHasPrefix a.Destination "." = true
      then dir ++ "/" ++ a.Destination else a.Destination := by
  unfold rebaseAction at h
  split at h
  · cases h
  · dsimp only at h
    split at h
    · rename_i hp
      cases h
      simp [hp]
    · rename_i hp
      cases h
      simp [hp]

/-- C6 fails as stated: the document `/cfg/root.yaml`, loaded from `/cfg`, declares `y`
with source `./y/../yrc`; the merged entry has source `/cfg/yrc`, which is not the string
`/cfg` + `/` + `./y/../yrc`. -/
theorem merged_source_not_concatenation :
    readFile exampleEnv "/cfg/root.yaml" = .ok rootDoc ∧
      rootDoc.Config.FileActions.lookup "y" =
        some { Source := "./y/../yrc", Destination := "~/.yrc" } ∧
      (mergedEntry exampleEnv rootDoc rootDoc "y").map (fun r => r.Source) = some "/cfg/yrc" ∧
      "/cfg/yrc" ≠ rootDoc.ConfigFileDirectory ++ "/" ++ "./y/../yrc" := by
  decide

/-- C6 as amended: for a document that `readFile` returned, with directory `D`, the merge
succeeds and leaves under every key of the document an entry whose source is
`filepath.Clean(D + "/" + s)`, where `s` is the source the document gives. -/
theorem merged_source_is_cleaned (env : Env) (hwd : env.wdAbsolute) (path : String)
    (cfg acc : ConfigWrapper) (h : readFile env path = .ok cfg)
    (hu : cfg.Config.FileActions.range.keysUnique) :
    ∃ acc', appendActionsToGlobalConfig env cfg acc = .ok acc' ∧
      ∀ k a, cfg.Config.FileActions.lookup k = some a →
        ∃ r, acc'.Config.FileActions.lookup k = some r ∧
          r.Source = filepathClean (cfg.ConfigFileDirectory ++ "/" ++ a.Source) := by
  obtain ⟨acc', ha, -, -, -, -, hk⟩ := appendActionsToGlobalConfig_spec env path cfg acc h hu
  refine ⟨acc', ha, ?_⟩
  intro k a hka
  obtain ⟨r, hr, hlk⟩ := (hk k).2 a hka
  rw [rebaseAction_of_isAbs env _ (readFile_dir_isAbs env hwd path cfg h) a] at hr
  cases hr
  exact ⟨_, hlk, rfl⟩

/-- C6 as amended, on the example: `/cfg/root.yaml` merged into the document
`/cfg/second.yaml`. -/
theorem merged_source_is_cleaned_witness :
    exampleEnv.wdAbsolute ∧ readFile exampleEnv "/cfg/root.yaml" = .ok rootDoc ∧
    rootDoc.Config.FileActions.range.keysUnique ∧
    ∃ acc', appendActionsToGlobalConfig exampleEnv rootDoc secondDoc = .ok acc' ∧
      ∀ k a, rootDoc.Config.FileActions.lookup k = some a →
        ∃ r, acc'.Config.FileActions.lookup k = some r ∧
          r.Source = filepathClean (rootDoc.ConfigFileDirectory ++ "/" ++ a.Source) :=
  ⟨by decide, by decide, by decide,
    merged_source_is_cleaned exampleEnv (by decide) "/cfg/root.yaml" rootDoc secondDoc
      (by decide) (by decide)⟩

/-- C7: for a document that `readFile` returned, with directory `D`, the merge succeeds
and leaves under every key of the document an entry whose destination is `D + "/" + d`,
uncleaned, when the destination `d` the document gives begins with a dot, and `d` itself
otherwise. -/
theorem merged_destination_rebased (env : Env) (path : String)
    (cfg acc : ConfigWrapper) (h : readFile env path = .ok cfg)
    (hu : cfg.Config.FileActions.range.keysUnique) :
    ∃ acc', appendActionsToGlobalConfig env cfg acc = .ok acc' ∧
      ∀ k a, cfg.Config.FileActions.lookup k = some a →
        ∃ r, acc'.Config.FileActions.lookup k = some r ∧
          (stringsHasPrefix a.Destination "." = true →
            r.Destination = cfg.ConfigFileDirectory ++ "/" ++ a.Destination) ∧
          (stringsHasPrefix a.Destination "." = false → r.Destination = a.Destination) := by
  obtain ⟨acc', ha, -, -, -, -, hk⟩ := appendActionsToGlobalConfig_spec env path cfg acc h hu
  refine ⟨acc', ha, ?_⟩
  intro k a hka
  obtain ⟨r, hr, hlk⟩ := (hk k).2 a hka
  have hd := rebaseAction_destination env _ a r hr
  refine ⟨r, hlk, ?_, ?_⟩
  · intro hp
    rw [hd, if_pos hp]
  · intro hp
    rw [hd, if_neg (by simp [hp])]

/-- C7 on the example: `/cfg/root.yaml` declares `x` with destination `./x.out` and `y`
with destination `~/.yrc`. -/
theorem merged_destination_rebased_witness :
    readFile exampleEnv "/cfg/root.yaml" = .ok rootDoc ∧
    rootDoc.Config.FileActions.range.keysUnique ∧
    ∃ acc', appendActionsToGlobalConfig exampleEnv rootDoc secondDoc = .ok acc' ∧
      ∀ k a, rootDoc.Config.FileActions.lookup k = some a →
        ∃ r, acc'.Config.FileActions.lookup k = some r ∧
          (stringsHasPrefix a.Destination "." = true →
            r.Destination = rootDoc.ConfigFileDirectory ++ "/" ++ a.Destination) ∧
          (stringsHasPrefix a.Destination "." = false → r.Destination = a.Destination) :=
  ⟨by decide, by decide,
    merged_destination_rebased exampleEnv "/cfg/root.yaml" rootDoc secondDoc
      (by decide) (by decide)⟩

/-! ## The path invariant of the accumulator -/

/-- C8: when every working directory is absolute, after `loadConfig(nil, root)` on a
finite, fully loadable include tree every entry of `fileActions` has an absolute source
that `filepath.Clean` leaves unchanged, and it is the rebased action of a document of the
tree; when that document wrote the destination with a leading dot, the destination is
absolute and begins with the directory of that document. -/
theorem loadConfig_path_invariant (env : Env) (hwd : env.wdAbsolute) (root : String)
    (t : IncTree) (hl : t.loadsFrom env root = true)
    (hu : ∀ d ∈ t.docs, d.Config.FileActions.range.keysUnique) :
    ∃ acc, (∀ fuel, t.depth ≤ fuel → loadConfig fuel env none root = .ok (acc, acc)) ∧
      ∀ k r, acc.Config.FileActions.lookup k = some r →
        filepathIsAbs r.Source = true ∧ filepathClean r.Source = r.Source ∧
        ∃ d ∈ t.docs, ∃ a, d.Config.FileActions.lookup k = some a ∧
          rebaseAction env d.ConfigFileDirectory a = .ok r ∧
          (stringsHasPrefix a.Destination "." = true →
            filepathIsAbs r.Destination = true ∧
            stringsHasPrefix r.Destination d.ConfigFileDirectory = true) := by
  obtain ⟨acc, hm, hload⟩ := loadConfig_nil_eq_mergeDocs env root t hl
  refine ⟨acc, hload, ?_⟩
  intro k r hr
  have horigin := mergeDocs_entry_origin env t.docs t.root acc
    (fun d hd => ⟨incTree_docs_read env t root hl d hd, hu d hd⟩) hm k r hr
  have hdecl : ∃ d ∈ t.docs, ∃ a, d.Config.FileActions.lookup k = some a ∧
      rebaseAction env d.ConfigFileDirectory a = .ok r := by
    rcases horigin with ⟨hnone, hroot⟩ | h
    · rw [hnone t.root t.root_mem_docs] at hroot
      cases hroot
    · exact h
  obtain ⟨d, hd, a, ha, hr'⟩ := hdecl
  obtain ⟨p, hp⟩ := incTree_docs_read env t root hl d hd
  have hdir := readFile_dir_isAbs env hwd p d hp
  have hform := rebaseAction_of_isAbs env _ hdir a
  rw [hr'] at hform
  have habs : filepathIsAbs (d.ConfigFileDirectory ++ "/" ++ a.Source) = true := by
    rw [String.append_assoc]; exact filepathIsAbs_append _ _ hdir
  have hsrc : r.Source = filepathClean (d.ConfigFileDirectory ++ "/" ++ a.Source) := by
    cases hform; rfl
  refine ⟨?_, ?_, d, hd, a, ha, hr', ?_⟩
  · rw [hsrc]; exact filepathIsAbs_clean _ habs
  · rw [hsrc]; exact filepathClean_idem _ habs
  · intro hpre
    have hdst : r.Destination = d.ConfigFileDirectory ++ "/" ++ a.Destination := by
      rw [rebaseAction_destination env _ a r hr', if_pos hpre]
    rw [hdst, String.append_assoc]
    exact ⟨filepathIsAbs_append _ _ hdir, stringsHasPrefix_append _ _⟩

/-- C8 on the example tree of `/cfg/root.yaml`. -/
theorem loadConfig_path_invariant_witness :
    exampleEnv.wdAbsolute ∧ rootTree.loadsFrom exampleEnv "/cfg/root.yaml" = true ∧
    (∀ d ∈ rootTree.docs, d.Config.FileActions.range.keysUnique) ∧
    ∃ acc, (∀ fuel, rootTree.depth ≤ fuel →
        loadConfig fuel exampleEnv none "/cfg/root.yaml" = .ok (acc, acc)) ∧
      ∀ k r, acc.Config.FileActions.lookup k = some r →
        filepathIsAbs r.Source = true ∧ filepathClean r.Source = r.Source ∧
        ∃ d ∈ rootTree.docs, ∃ a, d.Config.FileActions.lookup k = some a ∧
          rebaseAction exampleEnv d.ConfigFileDirectory a = .ok r ∧
          (stringsHasPrefix a.Destination "." = true →
            filepathIsAbs r.Destination = true ∧
            stringsHasPrefix r.Destination d.ConfigFileDirectory = true) :=
  ⟨by decide, by decide, by decide,
    loadConfig_path_invariant exampleEnv (by decide) "/cfg/root.yaml" rootTree
      (by decide) (by decide)⟩

/-! ## Where includes are loaded from -/

theorem includeLoop_append_ok
    (load : Option ConfigWrapper → String → Run (ConfigWrapper × ConfigWrapper))
    (dir : String) (rest : List String) (pre : List String) :
    ∀ (acc mid : ConfigWrapper), includeLoop load dir pre acc = .ok mid →
      includeLoop load dir (pre ++ rest) acc = includeLoop load dir rest mid := by
  induction pre with
  | nil =>
    intro acc mid h
    simp only [includeLoop, Run.ok.injEq] at h
    subst h
    rfl
  | cons p ps ih =>
    intro acc mid h
    show includeLoop load dir (p :: (ps ++ rest)) acc = _
    simp only [includeLoop] at h ⊢
    cases hr : load (some acc) (dir ++ "/" ++ p) with
    | ok r => rw [hr] at h; exact ih r.2 mid h
    | err e => rw [hr] at h; cases h
    | outOfFuel => rw [hr] at h; cases h

/-- An absolute path and its cleaned form name the same file to `readFile`. -/
theorem readFile_clean (env : Env) (p : String) (hp : filepathIsAbs p = true) :
    readFile env (filepathClean p) = readFile env p := by
  unfold readFile
  rw [filepathAbs_of_isAbs env p hp,
    filepathAbs_of_isAbs env _ (filepathIsAbs_clean p hp), filepathClean_idem p hp]

theorem loadsFrom_clean (env : Env) (t : IncTree) (p : String) (hp : filepathIsAbs p = true) :
    t.loadsFrom env (filepathClean p) = t.loadsFrom env p := by
  cases t
  simp only [IncTree.loadsFrom, readFile_clean env p hp]

/-- C9 fails as stated: `/cfg/absinc.yaml`, in directory `/cfg`, includes the absolute path
`/cfg/sub/sub.yaml`, a document that exists and loads; the merge does not load it but
looks for `/cfg/cfg/sub/sub.yaml`, and fails. -/
theorem absolute_include_not_loaded_at_itself :
    readFile exampleEnv "/cfg/absinc.yaml" = .ok absoluteIncludeDoc ∧
      absoluteIncludeDoc.Config.Includes = ["/cfg/sub/sub.yaml"] ∧
      filepathIsAbs "/cfg/sub/sub.yaml" = true ∧
      readFile exampleEnv "/cfg/sub/sub.yaml" = .ok subDoc ∧
      loadConfig 2 exampleEnv none "/cfg/absinc.yaml" =
        .err "open /cfg/cfg/sub/sub.yaml: no such file or directory" := by
  decide

/-- C9 as amended: for a document that `readFile` returned, with directory `D`, and every
entry `inc` of its includes, absolute or relative alike: when the includes before `inc`
load and the file `filepath.Clean(D + "/" + inc)` has a loadable include tree, then for
every sufficient fuel the include loop reaches `inc`, the call `loadConfig` makes for it
returns the document read from `filepath.Clean(D + "/" + inc)`, the documents of that tree
are merged into the accumulator, and the loop goes on from there with the includes that
follow. -/
theorem include_loaded_below_directory (env : Env) (hwd : env.wdAbsolute) (path : String)
    (doc : ConfigWrapper) (h : readFile env path = .ok doc) (pre : List String) (inc : String)
    (post : List String) (hinc : doc.Config.Includes = pre ++ inc :: post)
    (done : IncForest) (child : IncTree)
    (hdone : done.loadsFrom env doc.ConfigFileDirectory pre = true)
    (hchild : child.loadsFrom env (filepathClean (doc.ConfigFileDirectory ++ "/" ++ inc)) = true) :
    child.root.ConfigFilePath = filepathClean (doc.ConfigFileDirectory ++ "/" ++ inc) ∧
      ∀ fuel, max done.depth child.depth ≤ fuel → ∀ acc, ∃ mid merged,
        includeLoop (loadConfig fuel env) doc.ConfigFileDirectory pre acc = .ok mid ∧
        loadConfig fuel env (some mid) (doc.ConfigFileDirectory ++ "/" ++ inc) =
          .ok (child.root, merged) ∧
        mergeDocs env child.docs mid = .ok merged ∧
        includeLoop (loadConfig fuel env) doc.ConfigFileDirectory doc.Config.Includes acc =
          includeLoop (loadConfig fuel env) doc.ConfigFileDirectory post merged := by
  have hdir := readFile_dir_isAbs env hwd path doc h
  have habs : filepathIsAbs (doc.ConfigFileDirectory ++ "/" ++ inc) = true := by
    rw [String.append_assoc]; exact filepathIsAbs_append _ _ hdir
  have hraw : child.loadsFrom env (doc.ConfigFileDirectory ++ "/" ++ inc) = true := by
    rw [← loadsFrom_clean env child _ habs]; exact hchild
  refine ⟨?_, ?_⟩
  · cases child with
    | node cdoc children =>
      simp only [IncTree.loadsFrom, Bool.and_eq_true, decide_eq_true_eq] at hraw
      obtain ⟨abs, ha, hpath, -⟩ := readFile_ok env _ cdoc hraw.1
      rw [filepathAbs_of_isAbs env _ habs] at ha
      cases ha
      exact hpath
  · intro fuel hfuel acc
    obtain ⟨mid, -, hmid⟩ := includeLoop_on_forest env done doc.ConfigFileDirectory pre acc fuel
      hdone (le_trans (le_max_left _ _) hfuel)
    obtain ⟨merged, hmerge, hload⟩ := loadConfig_on_tree env child
      (doc.ConfigFileDirectory ++ "/" ++ inc) (some mid) fuel hraw
      (le_trans (le_max_right _ _) hfuel)
    refine ⟨mid, merged, hmid, hload, by simpa using hmerge, ?_⟩
    rw [hinc, includeLoop_append_ok _ _ (inc :: post) pre acc mid hmid]
    simp only [includeLoop, hload]

/-- C9 as amended, on the example: `/cfg/rooted.yaml`, in directory `/cfg`, includes the
absolute path `/sub/sub.yaml`; the document merged for it is `/cfg/sub/sub.yaml`, and the
whole load returns with the entry `x` of that document. -/
theorem include_loaded_below_directory_witness :
    exampleEnv.wdAbsolute ∧ readFile exampleEnv "/cfg/rooted.yaml" = .ok rootedIncludeDoc ∧
    rootedIncludeDoc.Config.Includes = [] ++ "/sub/sub.yaml" :: [] ∧
    IncForest.nil.loadsFrom exampleEnv rootedIncludeDoc.ConfigFileDirectory [] = true ∧
    (IncTree.node subDoc .nil).loadsFrom exampleEnv
      (filepathClean (rootedIncludeDoc.ConfigFileDirectory ++ "/" ++ "/sub/sub.yaml")) = true ∧
    ((IncTree.node subDoc .nil).root.ConfigFilePath =
        filepathClean (rootedIncludeDoc.ConfigFileDirectory ++ "/" ++ "/sub/sub.yaml") ∧
      ∀ fuel, max IncForest.nil.depth (IncTree.node subDoc .nil).depth ≤ fuel → ∀ acc,
        ∃ mid merged,
          includeLoop (loadConfig fuel exampleEnv) rootedIncludeDoc.ConfigFileDirectory [] acc =
            .ok mid ∧
          loadConfig fuel exampleEnv (some mid)
              (rootedIncludeDoc.ConfigFileDirectory ++ "/" ++ "/sub/sub.yaml") =
            .ok ((IncTree.node subDoc .nil).root, merged) ∧
          mergeDocs exampleEnv (IncTree.node subDoc .nil).docs mid = .ok merged ∧
          includeLoop (loadConfig fuel exampleEnv) rootedIncludeDoc.ConfigFileDirectory
              rootedIncludeDoc.Config.Includes acc =
            includeLoop (loadConfig fuel exampleEnv) rootedIncludeDoc.ConfigFileDirectory []
              merged) ∧
    subDoc.ConfigFilePath = "/cfg/sub/sub.yaml" ∧
    accumulatedEntry 2 exampleEnv "/cfg/rooted.yaml" "x" =
      some { Source := "/cfg/sub/subrc", Destination := "~/.x" } :=
  ⟨by decide, by decide, by decide, by decide, by decide,
    include_loaded_below_directory exampleEnv (by decide) "/cfg/rooted.yaml" rootedIncludeDoc
      (by decide) [] "/sub/sub.yaml" [] (by decide) .nil (.node subDoc .nil)
      (by decide) (by decide),
    by decide, by decide⟩

/-! ## Merging a document into itself -/

theorem not_dot_of_isAbs (s : String) (h : filepathIsAbs s = true) :
    stringsHasPrefix s "." = false := by
  unfold filepathIsAbs at h
  unfold stringsHasPrefix
  cases hs : s.data with
  | nil => rw [hs] at h; simp [isRooted] at h
  | cons c cs =>
    rw [hs] at h
    by_cases hc : c = '/'
    · subst hc
      show List.isPrefixOf ['.'] ('/' :: cs) = false
      simp [List.isPrefixOf]
    · simp [isRooted, hc] at h

theorem rebased_destination_not_dot (env : Env) (dir : String) (hd : filepathIsAbs dir = true)
    (a r : FileAction) (h : rebaseAction env dir a = .ok r) :
    stringsHasPrefix r.Destination "." = false := by
  have hdst := rebaseAction_destination env dir a r h
  by_cases hp : stringsHasPrefix a.Destination "." = true
  · rw [hdst, if_pos hp, String.append_assoc]
    exact not_dot_of_isAbs _ (filepathIsAbs_append _ _ hd)
  · rw [hdst, if_neg hp]
    simpa using hp

/-- C10 fails as stated: `/cfg/root.yaml` declares `x` with source `rootrc`; merged into
itself once the entry has source `/cfg/rootrc`, merged into itself twice it has source
`/cfg/cfg/rootrc`. -/
theorem merge_into_itself_twice_moves_source :
    readFile exampleEnv "/cfg/root.yaml" = .ok rootDoc ∧
      (mergedEntry exampleEnv rootDoc rootDoc "x").map (fun r => r.Source) =
        some "/cfg/rootrc" ∧
      (mergeIntoItselfTwice exampleEnv rootDoc).toOption.bind
          (fun twice => (twice.Config.FileActions.lookup "x").map (fun r => r.Source)) =
        some "/cfg/cfg/rootrc" := by
  decide

/-- C10 as amended: for a document with an absolute directory `D`, merging it into itself
twice succeeds and, compared with merging it once, leaves the same keys, the same
destination under every key and the same package actions, while every source `s` left by
the first merge becomes `filepath.Clean(D + "/" + s)`. -/
theorem merge_into_itself_twice (env : Env) (cfg : ConfigWrapper)
    (hd : filepathIsAbs cfg.ConfigFileDirectory = true)
    (hu : cfg.Config.FileActions.range.keysUnique)
    (hp : cfg.Config.PackageActions.range.keysUnique) :
    ∃ once twice, appendActionsToGlobalConfig env cfg cfg = .ok once ∧
      mergeIntoItselfTwice env cfg = .ok twice ∧
      ∀ k, (twice.Config.FileActions.lookup k).isSome = (once.Config.FileActions.lookup k).isSome ∧
        (twice.Config.FileActions.lookup k).map (fun r => r.Destination) =
          (once.Config.FileActions.lookup k).map (fun r => r.Destination) ∧
        twice.Config.PackageActions.lookup k = once.Config.PackageActions.lookup k ∧
        (twice.Config.FileActions.lookup k).map (fun r => r.Source) =
          (once.Config.FileActions.lookup k).map
            (fun r => filepathClean (cfg.ConfigFileDirectory ++ "/" ++ r.Source)) := by
  have htot : ∀ a, ∃ r, rebaseAction env cfg.ConfigFileDirectory a = .ok r :=
    fun a => ⟨_, rebaseAction_of_isAbs env _ hd a⟩
  obtain ⟨once, h1, hdir, -, -, hpa, ⟨m1, hm1, hfa⟩, hk1⟩ :=
    appendActionsToGlobalConfig_spec_of_total env cfg cfg htot hu
  have hu1 : once.Config.FileActions.range.keysUnique := by
    rw [hfa]
    exact appendFileActions_keysUnique env _ _ _ m1 hu hm1
  have hp1 : once.Config.PackageActions.range.keysUnique := by
    rw [hpa]
    exact appendPackageActions_keysUnique _ _ hp
  obtain ⟨twice, h2, -, -, -, hpa2, -, hk2⟩ :=
    appendActionsToGlobalConfig_spec_of_total env once once (by rw [hdir]; exact htot) hu1
  refine ⟨once, twice, h1, by simp only [mergeIntoItselfTwice, h1, h2], ?_⟩
  intro k
  have hpk : twice.Config.PackageActions.lookup k = once.Config.PackageActions.lookup k := by
    rw [hpa2]
    show Entries.lookup k (appendPackageActions _ _) = _
    rw [appendPackageActions_lookup _ _ hp1 k]
    show (match once.Config.PackageActions.lookup k with
      | some a => some a
      | none => once.Config.PackageActions.lookup k) = _
    cases once.Config.PackageActions.lookup k <;> rfl
  cases hlk : once.Config.FileActions.lookup k with
  | none =>
    rw [(hk2 k).1 hlk, hlk]
    exact ⟨rfl, rfl, hpk, rfl⟩
  | some r1 =>
    obtain ⟨r2, hr2, hlk2⟩ := (hk2 k).2 r1 hlk
    rw [hlk2]
    rw [hdir] at hr2
    have hnd : stringsHasPrefix r1.Destination "." = false := by
      cases hc : cfg.Config.FileActions.lookup k with
      | none =>
        have := (hk1 k).1 hc
        rw [hlk, hc] at this
        cases this
      | some a =>
        obtain ⟨r, hr, hlr⟩ := (hk1 k).2 a hc
        rw [hlk] at hlr
        cases hlr
        exact rebased_destination_not_dot env _ hd a r1 hr
    have hform := rebaseAction_of_isAbs env _ hd r1
    rw [hr2] at hform
    cases hform
    simp [hnd, hpk]

/-- C10 as amended, on the example document `/cfg/root.yaml`. -/
theorem merge_into_itself_twice_witness :
    filepathIsAbs rootDoc.ConfigFileDirectory = true ∧
    rootDoc.Config.FileActions.range.keysUnique ∧
    rootDoc.Config.PackageActions.range.keysUnique ∧
    ∃ once twice, appendActionsToGlobalConfig exampleEnv rootDoc rootDoc = .ok once ∧
      mergeIntoItselfTwice exampleEnv rootDoc = .ok twice ∧
      ∀ k, (twice.Config.FileActions.lookup k).isSome = (once.Config.FileActions.lookup k).isSome ∧
        (twice.Config.FileActions.lookup k).map (fun r => r.Destination) =
          (once.Config.FileActions.lookup k).map (fun r => r.Destination) ∧
        twice.Config.PackageActions.lookup k = once.Config.PackageActions.lookup k ∧
        (twice.Config.FileActions.lookup k).map (fun r => r.Source) =
          (once.Config.FileActions.lookup k).map
            (fun r => filepathClean (rootDoc.ConfigFileDirectory ++ "/" ++ r.Source)) :=
  ⟨by decide, by decide, by decide,
    merge_into_itself_twice exampleEnv rootDoc (by decide) (by decide) (by decide)⟩

end ConfigBuddy
